import Mathlib

/-!
Verification development for the Helios compiler core (static type system and
compile-time lowering pipeline).

Shallow embedding conventions:
  We translate the JavaScript classes into Lean definitions.  A JavaScript
  class hierarchy dispatching on the runtime class of a value becomes an
  inductive type with one constructor per concrete class, and the virtual
  method becomes a recursive function matching on constructors.  Thrown
  errors become `Except` values.  The insertion-ordered `Map` used for IR
  definitions becomes an association list (keys unique by construction).
-/

deriving instance DecidableEq for Except

namespace Helios

/--
The catalogue of builtin types (`helios-eval-entities.js`).  One constructor
per concrete `BuiltinType` subclass that appears in the sources modelled
here: the simple data types, the structurally parameterised `ListType`,
`MapType` and `OptionType` (with its two member types `OptionSomeType` and
`OptionNoneType`), and a representative builtin enum family,
`ScriptPurposeType` with its four member types.
-/
inductive Ty where
  | int
  | real
  | bool
  | str
  | byteArray
  | rawData
  | pubKeyHash
  | validatorHash
  | time
  | duration
  | list (item : Ty)
  | map (key value : Ty)
  | option (someTy : Ty)
  | optionSome (someTy : Ty)
  | optionNone (someTy : Ty)
  | scriptPurpose
  | mintingPurpose
  | spendingPurpose
  | rewardingPurpose
  | certifyingPurpose
deriving DecidableEq, Repr

/--
`isBaseOf` from `helios-eval-entities.js`.

For a simple builtin type the inherited `DataType.isBaseOf` compares the
prototypes of the two objects, which for parameterless classes is exactly
variant equality (the final catch-all case).  `ListType`, `MapType`,
`OptionType`, `OptionSomeType` and `OptionNoneType` override it with a
recursive covariant check on the contained types; `OptionType` additionally
accepts its member types, and `ScriptPurposeType` accepts its four member
types (the `super.isBaseOf(type) || ...member...` pattern).
-/
def isBaseOf : Ty → Ty → Bool
  | .list a, .list b => isBaseOf a b
  | .map k v, .map k2 v2 => isBaseOf k k2 && isBaseOf v v2
  | .option a, .option b => isBaseOf a b
  | .option a, .optionSome b => isBaseOf a b
  | .option a, .optionNone b => isBaseOf a b
  | .optionSome a, .optionSome b => isBaseOf a b
  | .optionNone a, .optionNone b => isBaseOf a b
  | .scriptPurpose, .mintingPurpose => true
  | .scriptPurpose, .spendingPurpose => true
  | .scriptPurpose, .rewardingPurpose => true
  | .scriptPurpose, .certifyingPurpose => true
  | a, b => a == b

/-- `isBaseOf` is reflexive: every builtin type is a base of itself. -/
theorem isBaseOf_refl (a : Ty) : isBaseOf a a = true := by
  induction a <;> simp [isBaseOf, *]

/--
C7: for every pair of builtin types `A` and `B`, `A.isBaseOf(B)` and
`B.isBaseOf(A)` are both true if and only if `A` and `B` are the identical
builtin variant with identical structural parameters (which in the
catalogue model is plain equality of the two `Ty` values).
-/
theorem isBaseOf_mutual_iff_eq (a b : Ty) :
    (isBaseOf a b = true ∧ isBaseOf b a = true) ↔ a = b := by
  induction a generalizing b <;> cases b <;>
    simp_all [isBaseOf, and_assoc, and_comm, and_left_comm]
  rename_i k v ihk ihv k2 v2
  constructor
  · rintro ⟨h1, h2, h3, h4⟩
    exact ⟨(ihk k2).mp ⟨h1, h3⟩, (ihv v2).mp ⟨h2, h4⟩⟩
  · rintro ⟨rfl, rfl⟩
    exact ⟨isBaseOf_refl _, isBaseOf_refl _, isBaseOf_refl _, isBaseOf_refl _⟩

/-! ## Entry-point validation (`RedeemerProgram` / `DatumRedeemerProgram`) -/

/--
The three flags of the argument-scanning loop in
`DatumRedeemerProgram.evalTypesInternal`.
-/
structure DRFlags where
  haveDatum : Bool
  haveRedeemer : Bool
  haveScriptContext : Bool
deriving DecidableEq, Repr

def DRFlags.init : DRFlags := ⟨false, false, false⟩

/--
One iteration of the argument loop of
`DatumRedeemerProgram.evalTypesInternal`: `t` is `main.argTypeNames[i]`
(the empty string stands for an underscore argument).  Error messages are
modelled without quote characters.
-/
def checkArgDR (haveUnderscores : Bool) (i : Nat) (st : DRFlags) (t : String) :
    Except String DRFlags :=
  if t = "" then .ok st
  else if t = "Datum" then
    if haveUnderscores && i != 0 then
      .error ("unexpected Datum type for arg " ++ toString i ++ " of main")
    else if st.haveDatum then .error "duplicate Datum argument"
    else if st.haveRedeemer then .error "Datum must come before Redeemer"
    else if st.haveScriptContext then .error "Datum must come before ScriptContext"
    else .ok { st with haveDatum := true }
  else if t = "Redeemer" then
    if haveUnderscores && i != 1 then
      .error ("unexpected Redeemer type for arg " ++ toString i ++ " of main")
    else if st.haveRedeemer then .error "duplicate Redeemer argument"
    else if st.haveScriptContext then .error "Redeemer must come before ScriptContext"
    else .ok { st with haveRedeemer := true }
  else if t = "ScriptContext" then
    if haveUnderscores && i != 2 then
      .error ("unexpected ScriptContext type for arg " ++ toString i ++ " of main")
    else if st.haveScriptContext then .error "duplicate ScriptContext argument"
    else .ok { st with haveScriptContext := true }
  else
    .error ("illegal argument type, must be Datum, Redeemer or ScriptContext, got " ++ t)

/-- The argument loop of `DatumRedeemerProgram.evalTypesInternal`. -/
def loopDR (haveUnderscores : Bool) : Nat → DRFlags → List String → Except String DRFlags
  | _, st, [] => .ok st
  | i, st, t :: rest =>
    match checkArgDR haveUnderscores i st t with
    | .error e => .error e
    | .ok st2 => loopDR haveUnderscores (i + 1) st2 rest

/--
The shared return-type check at the end of both `evalTypesInternal`
methods: exactly one return value, of a type `BoolType` is a base of.
-/
def checkMainRet (retTypes : List Ty) : Except String Unit :=
  match retTypes with
  | [rt] =>
    if !(isBaseOf .bool rt) then .error "illegal return type for main, expected Bool"
    else .ok ()
  | _ => .error "illegal number of return values for main, expected 1"

/--
`DatumRedeemerProgram.evalTypesInternal` restricted to the entry-point
contract it enforces on `main` (the scope bookkeeping of the surrounding
`Program.evalTypesInternal` is not modelled).  The deprecation warning for
fewer than three arguments without underscores is a non-fatal no-op; the
`assert` for underscore style with the wrong argument count throws, which
is modelled as an error.
-/
def evalTypesDR (argTypeNames : List String) (retTypes : List Ty) : Except String Unit :=
  if argTypeNames.length > 3 then .error "too many arguments for main"
  else if (argTypeNames.any (fun n => n = "")) && argTypeNames.length != 3 then
    .error "expected 3 args"
  else
    match loopDR (argTypeNames.any (fun n => n = "")) 0 DRFlags.init argTypeNames with
    | .error e => .error e
    | .ok _ => checkMainRet retTypes

/-- The two flags of the argument loop in `RedeemerProgram.evalTypesInternal`. -/
structure RFlags where
  haveRedeemer : Bool
  haveScriptContext : Bool
deriving DecidableEq, Repr

def RFlags.init : RFlags := ⟨false, false⟩

/-- One iteration of the argument loop of `RedeemerProgram.evalTypesInternal`. -/
def checkArgR (haveUnderscores : Bool) (i : Nat) (st : RFlags) (t : String) :
    Except String RFlags :=
  if t = "" then .ok st
  else if t = "Redeemer" then
    if haveUnderscores && i != 0 then
      .error ("unexpected Redeemer type for arg " ++ toString i ++ " of main")
    else if st.haveRedeemer then .error "duplicate Redeemer argument"
    else if st.haveScriptContext then .error "Redeemer must come before ScriptContext"
    else .ok { st with haveRedeemer := true }
  else if t = "ScriptContext" then
    if haveUnderscores && i != 1 then
      .error ("unexpected ScriptContext type for arg " ++ toString i ++ " of main")
    else if st.haveScriptContext then .error "duplicate ScriptContext argument"
    else .ok { st with haveScriptContext := true }
  else
    .error ("illegal argument type, must be Redeemer or ScriptContext, got " ++ t)

/-- The argument loop of `RedeemerProgram.evalTypesInternal`. -/
def loopR (haveUnderscores : Bool) : Nat → RFlags → List String → Except String RFlags
  | _, st, [] => .ok st
  | i, st, t :: rest =>
    match checkArgR haveUnderscores i st t with
    | .error e => .error e
    | .ok st2 => loopR haveUnderscores (i + 1) st2 rest

/--
`RedeemerProgram.evalTypesInternal` (used for Minting and Staking
programs), modelled like `evalTypesDR`.
-/
def evalTypesR (argTypeNames : List String) (retTypes : List Ty) : Except String Unit :=
  if argTypeNames.length > 2 then .error "too many arguments for main"
  else if (argTypeNames.any (fun n => n = "")) && argTypeNames.length != 2 then
    .error "expected 2 arguments"
  else
    match loopR (argTypeNames.any (fun n => n = "")) 0 RFlags.init argTypeNames with
    | .error e => .error e
    | .ok _ => checkMainRet retTypes

/-- The argument type names accepted by the `DatumRedeemerProgram` loop. -/
def drKeywords : List String := ["", "Datum", "Redeemer", "ScriptContext"]

/-- The argument type names accepted by the `RedeemerProgram` loop. -/
def rKeywords : List String := ["", "Redeemer", "ScriptContext"]

/-- All lists over `alpha` of length at most `n`. -/
def listsUpTo (alpha : List String) : Nat → List (List String)
  | 0 => [[]]
  | n + 1 => [[]] ++ alpha.flatMap (fun a => (listsUpTo alpha n).map (fun l => a :: l))

theorem mem_listsUpTo {alpha : List String} {l : List String} :
    ∀ {n : Nat}, l.length ≤ n → (∀ x ∈ l, x ∈ alpha) → l ∈ listsUpTo alpha n := by
  intro n
  induction n generalizing l with
  | zero =>
    intro hlen _
    have : l = [] := List.eq_nil_of_length_eq_zero (Nat.le_zero.mp hlen)
    simp [this, listsUpTo]
  | succ n ih =>
    intro hlen halpha
    match l with
    | [] => simp [listsUpTo]
    | x :: xs =>
      have hx : x ∈ alpha := halpha x (by simp)
      have hxs : xs ∈ listsUpTo alpha n :=
        ih (Nat.le_of_succ_le_succ hlen) (fun y hy => halpha y (by simp [hy]))
      simp only [listsUpTo, List.mem_append, List.mem_flatMap]
      exact Or.inr ⟨x, hx, List.mem_map.mpr ⟨xs, hxs, rfl⟩⟩

/-- If the `DatumRedeemer` loop succeeds, every argument name is a keyword. -/
theorem loopDR_ok_mem_keywords {hu : Bool} :
    ∀ {ats : List String} {i : Nat} {st st' : DRFlags},
      loopDR hu i st ats = .ok st' → ∀ t ∈ ats, t ∈ drKeywords := by
  intro ats
  induction ats with
  | nil => intro _ _ _ _ t ht; cases ht
  | cons x xs ih =>
    intro i st st' hok t ht
    rw [loopDR] at hok
    cases hstep : checkArgDR hu i st x with
    | error e => rw [hstep] at hok; cases hok
    | ok st2 =>
      rw [hstep] at hok
      rcases List.mem_cons.mp ht with rfl | hmem
      · by_contra hbad
        simp only [drKeywords, List.mem_cons, List.not_mem_nil] at hbad
        push_neg at hbad
        obtain ⟨h0, h1, h2, h3⟩ := hbad
        simp [checkArgDR, h0, h1, h2, h3] at hstep
      · exact ih hok t hmem

/-- If the `Redeemer` loop succeeds, every argument name is a keyword. -/
theorem loopR_ok_mem_keywords {hu : Bool} :
    ∀ {ats : List String} {i : Nat} {st st' : RFlags},
      loopR hu i st ats = .ok st' → ∀ t ∈ ats, t ∈ rKeywords := by
  intro ats
  induction ats with
  | nil => intro _ _ _ _ t ht; cases ht
  | cons x xs ih =>
    intro i st st' hok t ht
    rw [loopR] at hok
    cases hstep : checkArgR hu i st x with
    | error e => rw [hstep] at hok; cases hok
    | ok st2 =>
      rw [hstep] at hok
      rcases List.mem_cons.mp ht with rfl | hmem
      · by_contra hbad
        simp only [rKeywords, List.mem_cons, List.not_mem_nil] at hbad
        push_neg at hbad
        obtain ⟨h0, h1, h2⟩ := hbad
        simp [checkArgR, h0, h1, h2] at hstep
      · exact ih hok t hmem

/-- A successful return-type check means exactly one `Bool` return value. -/
theorem checkMainRet_ok {rts : List Ty} (h : checkMainRet rts = .ok ()) :
    rts = [Ty.bool] := by
  match rts with
  | [] => simp [checkMainRet] at h
  | [rt] =>
    simp only [checkMainRet] at h
    split at h
    · cases h
    · rename_i hb
      simp only [Bool.not_eq_true, Bool.not_eq_false] at hb
      cases rt <;> simp [isBaseOf, beq_iff_eq] at hb
      rfl
  | _ :: _ :: _ => simp [checkMainRet] at h

/-- A successful `evalTypesDR` bounds the argument count by three. -/
theorem evalTypesDR_ok_length {ats : List String} {rts : List Ty}
    (h : evalTypesDR ats rts = .ok ()) : ats.length ≤ 3 := by
  by_contra hlen
  rw [evalTypesDR] at h
  rw [if_pos (Nat.lt_of_not_le hlen)] at h
  cases h

/-- A successful `evalTypesDR` only ever sees keyword argument names. -/
theorem evalTypesDR_ok_keywords {ats : List String} {rts : List Ty}
    (h : evalTypesDR ats rts = .ok ()) : ∀ t ∈ ats, t ∈ drKeywords := by
  rw [evalTypesDR] at h
  split at h
  · cases h
  · split at h
    · cases h
    · cases hok : loopDR (ats.any fun n => n = "") 0 DRFlags.init ats with
      | error e => rw [hok] at h; cases h
      | ok st' => exact loopDR_ok_mem_keywords hok

/-- A successful `evalTypesDR` forces exactly one `Bool` return type. -/
theorem evalTypesDR_ok_ret {ats : List String} {rts : List Ty}
    (h : evalTypesDR ats rts = .ok ()) : rts = [Ty.bool] := by
  rw [evalTypesDR] at h
  split at h
  · cases h
  · split at h
    · cases h
    · cases hok : loopDR (ats.any fun n => n = "") 0 DRFlags.init ats with
      | error e => rw [hok] at h; cases h
      | ok st' => rw [hok] at h; exact checkMainRet_ok h

/-- A successful `evalTypesDR` argument list is in the finite candidate set. -/
theorem evalTypesDR_ok_mem_candidates {ats : List String} {rts : List Ty}
    (h : evalTypesDR ats rts = .ok ()) : ats ∈ listsUpTo drKeywords 3 :=
  mem_listsUpTo (evalTypesDR_ok_length h) (evalTypesDR_ok_keywords h)

/-- Canonical Spending entry-point argument type names. -/
def drCanonical : List String := ["Datum", "Redeemer", "ScriptContext"]

theorem drPerm_not_canonical_fails :
    ∀ l ∈ listsUpTo drKeywords 3, l.Perm drCanonical → l ≠ drCanonical →
      evalTypesDR l [Ty.bool] ≠ .ok () := by decide

theorem drDuplicate_fails :
    ∀ l ∈ listsUpTo drKeywords 3, ∀ t ∈ drCanonical, 2 ≤ l.count t →
      evalTypesDR l [Ty.bool] ≠ .ok () := by decide

/--
C1: for a Spending-purpose program, entry-point validation enforces the
fixed argument contract: `main` with argument types
`Datum, Redeemer, ScriptContext` in that order (returning one `Bool`)
passes type checking; any permutation of those names other than the
canonical order is rejected, declaring any of the three names twice is
rejected, any argument type name outside the fixed keyword set is
rejected, more than three arguments are rejected, and a successful check
forces exactly one return value of type `Bool`.
-/
theorem spending_entry_point_contract :
    (evalTypesDR drCanonical [Ty.bool] = .ok ()) ∧
    (∀ ats rts, ats.Perm drCanonical → ats ≠ drCanonical →
      evalTypesDR ats rts ≠ .ok ()) ∧
    (∀ ats rts, (∃ t ∈ drCanonical, 2 ≤ ats.count t) →
      evalTypesDR ats rts ≠ .ok ()) ∧
    (∀ ats rts, (∃ t ∈ ats, t ∉ drKeywords) →
      evalTypesDR ats rts ≠ .ok ()) ∧
    (∀ ats rts, 3 < ats.length → evalTypesDR ats rts ≠ .ok ()) ∧
    (∀ ats rts, evalTypesDR ats rts = .ok () → rts = [Ty.bool]) := by
  refine ⟨by decide, ?_, ?_, ?_, ?_, ?_⟩
  · intro ats rts hperm hne hok
    have hrts := evalTypesDR_ok_ret hok
    subst hrts
    exact drPerm_not_canonical_fails ats (evalTypesDR_ok_mem_candidates hok) hperm hne hok
  · intro ats rts hdup hok
    have hrts := evalTypesDR_ok_ret hok
    subst hrts
    obtain ⟨t, htmem, htcount⟩ := hdup
    exact drDuplicate_fails ats (evalTypesDR_ok_mem_candidates hok) t htmem htcount hok
  · intro ats rts hbad hok
    obtain ⟨t, htmem, htbad⟩ := hbad
    exact htbad (evalTypesDR_ok_keywords hok t htmem)
  · intro ats rts hlen hok
    exact absurd (evalTypesDR_ok_length hok) (Nat.not_le_of_lt hlen)
  · intro ats rts hok
    exact evalTypesDR_ok_ret hok

/--
Witness for C1: the out-of-order list `Redeemer, Datum, ScriptContext` is
rejected and the canonical list is accepted.
-/
theorem spending_entry_point_contract_witness :
    evalTypesDR ["Redeemer", "Datum", "ScriptContext"] [Ty.bool] ≠ .ok () ∧
    evalTypesDR ["Datum", "Redeemer", "ScriptContext"] [Ty.bool] = .ok () :=
  ⟨spending_entry_point_contract.2.1 _ _ (by decide) (by decide),
   spending_entry_point_contract.1⟩

/-! ## Entry-point lowering (`RedeemerProgram.toIR` / `DatumRedeemerProgram.toIR`) -/

/-- The `TAB` indentation constant used when assembling IR source text. -/
def TAB : String := "    "

/-- `IR[].join(", ")`. -/
def joinComma (l : List String) : String := String.intercalate ", " l

/--
`while (outerArgs.length < n) outerArgs.push(new IR("_"))`: pad a parameter
list with discarded placeholder parameters up to length `n`.
-/
def padTo (l : List String) (n : Nat) : List String :=
  l ++ List.replicate (n - l.length) "_"

/--
The loop of `DatumRedeemerProgram.toIR` accumulating the outer (wrapper)
and inner (call) argument name lists.  `Redeemer` first pads the outer
list to length 1 and `ScriptContext` to length 2 (the
`if (outerArgs.length == 0)` / `while (outerArgs.length < 2)` pushes of
`_` in the source); an underscore argument contributes a discarded `_`
outer parameter and the literal `0` inner argument.  Any other name is the
`throw new Error("unexpected")` branch.
-/
def drArgsGo : List String → List String → List String →
    Except String (List String × List String)
  | [], outer, inner => .ok (outer, inner)
  | t :: rest, outer, inner =>
    if t = "Datum" then drArgsGo rest (outer ++ ["datum"]) (inner ++ ["datum"])
    else if t = "Redeemer" then drArgsGo rest (padTo outer 1 ++ ["redeemer"]) (inner ++ ["redeemer"])
    else if t = "ScriptContext" then drArgsGo rest (padTo outer 2 ++ ["ctx"]) (inner ++ ["ctx"])
    else if t = "" then drArgsGo rest (outer ++ ["_"]) (inner ++ ["0"])
    else .error "unexpected"

/-- Outer/inner argument lists of `DatumRedeemerProgram.toIR`, with the
final padding of the outer list to the Spending arity of three. -/
def drOuterInner (ats : List String) : Except String (List String × List String) :=
  match drArgsGo ats [] [] with
  | .error e => .error e
  | .ok (outer, inner) => .ok (padTo outer 3, inner)

/-- The loop of `RedeemerProgram.toIR` (Minting / Staking programs). -/
def rArgsGo : List String → List String → List String →
    Except String (List String × List String)
  | [], outer, inner => .ok (outer, inner)
  | t :: rest, outer, inner =>
    if t = "Redeemer" then rArgsGo rest (outer ++ ["redeemer"]) (inner ++ ["redeemer"])
    else if t = "ScriptContext" then rArgsGo rest (padTo outer 1 ++ ["ctx"]) (inner ++ ["ctx"])
    else if t = "" then rArgsGo rest (outer ++ ["_"]) (inner ++ ["0"])
    else .error "unexpected"

/-- Outer/inner argument lists of `RedeemerProgram.toIR`, with the final
padding of the outer list to the Minting/Staking arity of two. -/
def rOuterInner (ats : List String) : Except String (List String × List String) :=
  match rArgsGo ats [] [] with
  | .error e => .error e
  | .ok (outer, inner) => .ok (padTo outer 2, inner)

/--
The IR text up to and including
`__core__ifThenElse(` of the wrapper built by both `toIR` methods
(the first three `IR` chunks of the template, flattened).
-/
def entryHead (outer : List String) : String :=
  TAB ++ "/*entry point*/\n" ++ TAB ++ "(" ++ joinComma outer ++ ") -> \x7b\n" ++
  TAB ++ TAB ++ "__core__ifThenElse(\n" ++ TAB ++ TAB ++ TAB

/-- The self-application `${mainPath}(${mainPath})(` of the entry function
inside the wrapper body (supports direct recursion of `main`). -/
def selfApply (mainPath : String) : String :=
  mainPath ++ "(" ++ mainPath ++ ")("

/--
The constant tail of the wrapper: the two `ifThenElse` continuation
branches (unit no-op on `true`, the fatal `error("transaction rejected")`
on `false`) and the closing braces.
-/
def rejectTail : String :=
  "),\n" ++ TAB ++ TAB ++ TAB ++ "() -> \x7b()\x7d,\n" ++ TAB ++ TAB ++ TAB ++
  "() -> \x7berror(\"transaction rejected\")\x7d\n" ++ TAB ++ TAB ++ ")()" ++
  "\n" ++ TAB ++ "\x7d"

/-- The flattened wrapper IR text common to both `toIR` methods. -/
def rejectWrapperIR (mainPath : String) (outer inner : List String) : String :=
  entryHead outer ++ selfApply mainPath ++ joinComma inner ++ rejectTail

/-- `DatumRedeemerProgram.toIR` (before `wrapEntryPoint`, which only wraps
the expression with the definition table). -/
def drToIR (mainPath : String) (ats : List String) : Except String String :=
  match drOuterInner ats with
  | .error e => .error e
  | .ok (outer, inner) => .ok (rejectWrapperIR mainPath outer inner)

/-- `RedeemerProgram.toIR` (before `wrapEntryPoint`). -/
def rToIR (mainPath : String) (ats : List String) : Except String String :=
  match rOuterInner ats with
  | .error e => .error e
  | .ok (outer, inner) => .ok (rejectWrapperIR mainPath outer inner)

/-- The three Spending wrapper slots: a named parameter for each declared
keyword, a discarded `_` placeholder for each unused slot. -/
def drSlots (ats : List String) : List String :=
  [if ats.contains "Datum" then "datum" else "_",
   if ats.contains "Redeemer" then "redeemer" else "_",
   if ats.contains "ScriptContext" then "ctx" else "_"]

/-- The two Minting/Staking wrapper slots. -/
def rSlots (ats : List String) : List String :=
  [if ats.contains "Redeemer" then "redeemer" else "_",
   if ats.contains "ScriptContext" then "ctx" else "_"]

/-- Inner argument names of the Spending wrapper, one per declared
argument (`0` for an underscore argument). -/
def drInnerNames (ats : List String) : List String :=
  ats.map (fun t =>
    if t = "Datum" then "datum"
    else if t = "Redeemer" then "redeemer"
    else if t = "ScriptContext" then "ctx"
    else "0")

/-- Inner argument names of the Minting/Staking wrapper. -/
def rInnerNames (ats : List String) : List String :=
  ats.map (fun t =>
    if t = "Redeemer" then "redeemer"
    else if t = "ScriptContext" then "ctx"
    else "0")

theorem drOuterInner_validated :
    ∀ l ∈ listsUpTo drKeywords 3, evalTypesDR l [Ty.bool] = .ok () →
      drOuterInner l = .ok (drSlots l, drInnerNames l) := by decide

/-- A successful `evalTypesR` bounds the argument count by two. -/
theorem evalTypesR_ok_length {ats : List String} {rts : List Ty}
    (h : evalTypesR ats rts = .ok ()) : ats.length ≤ 2 := by
  by_contra hlen
  rw [evalTypesR] at h
  rw [if_pos (Nat.lt_of_not_le hlen)] at h
  cases h

/-- A successful `evalTypesR` only ever sees keyword argument names. -/
theorem evalTypesR_ok_keywords {ats : List String} {rts : List Ty}
    (h : evalTypesR ats rts = .ok ()) : ∀ t ∈ ats, t ∈ rKeywords := by
  rw [evalTypesR] at h
  split at h
  · cases h
  · split at h
    · cases h
    · cases hok : loopR (ats.any fun n => n = "") 0 RFlags.init ats with
      | error e => rw [hok] at h; cases h
      | ok st' => exact loopR_ok_mem_keywords hok

theorem rOuterInner_validated :
    ∀ l ∈ listsUpTo rKeywords 2, evalTypesR l [Ty.bool] = .ok () →
      rOuterInner l = .ok (rSlots l, rInnerNames l) := by decide

/-- A successful `evalTypesR` forces exactly one `Bool` return type. -/
theorem evalTypesR_ok_ret {ats : List String} {rts : List Ty}
    (h : evalTypesR ats rts = .ok ()) : rts = [Ty.bool] := by
  rw [evalTypesR] at h
  split at h
  · cases h
  · split at h
    · cases h
    · cases hok : loopR (ats.any fun n => n = "") 0 RFlags.init ats with
      | error e => rw [hok] at h; cases h
      | ok st' => rw [hok] at h; exact checkMainRet_ok h

/-- Substring occurrence, on the character data of the two strings. -/
def strContains (s pat : String) : Prop := pat.data <:+: s.data

/--
C2: for every type-checked Spending (resp. Minting/Staking) program, the
lowered entry point is a wrapper whose outer parameter list is exactly the
three (resp. two) purpose slots — a named parameter per declared keyword
and a discarded `_` placeholder per unused slot — whose body applies the
entry function to itself (`main(main)(...)`) before passing the inner
arguments, and whose `__core__ifThenElse` conditional yields the unit
no-op `() -> {()}` on `true` and the fatal
`error("transaction rejected")` on `false`.
-/
theorem lowered_entry_point_wrapper :
    (∀ ats rts mainPath, evalTypesDR ats rts = .ok () →
      drToIR mainPath ats =
        .ok (entryHead (drSlots ats) ++ selfApply mainPath ++
             joinComma (drInnerNames ats) ++ rejectTail)) ∧
    (∀ ats rts mainPath, evalTypesR ats rts = .ok () →
      rToIR mainPath ats =
        .ok (entryHead (rSlots ats) ++ selfApply mainPath ++
             joinComma (rInnerNames ats) ++ rejectTail)) ∧
    (∀ ats, (drSlots ats).length = 3) ∧
    (∀ ats, (rSlots ats).length = 2) ∧
    (∀ mainPath, selfApply mainPath = mainPath ++ "(" ++ mainPath ++ ")(") ∧
    strContains rejectTail "transaction rejected" ∧
    strContains rejectTail "() -> \x7b()\x7d" := by
  refine ⟨?_, ?_, fun ats => rfl, fun ats => rfl, fun mp => rfl,
    by unfold strContains; decide, by unfold strContains; decide⟩
  · intro ats rts mp hok
    have hmem := mem_listsUpTo (evalTypesDR_ok_length hok) (evalTypesDR_ok_keywords hok)
    have hrts := evalTypesDR_ok_ret hok
    subst hrts
    have := drOuterInner_validated ats hmem hok
    rw [drToIR, this]
    rfl
  · intro ats rts mp hok
    have hmem := mem_listsUpTo (evalTypesR_ok_length hok) (evalTypesR_ok_keywords hok)
    have hrts := evalTypesR_ok_ret hok
    subst hrts
    have := rOuterInner_validated ats hmem hok
    rw [rToIR, this]
    rfl

/--
Witness for C2: a Spending `main` declaring only `ScriptContext` lowers to
a wrapper with placeholders in the first two slots, and a Minting `main`
declaring `Redeemer, ScriptContext` fills both slots.
-/
theorem lowered_entry_point_wrapper_witness :
    drToIR "main" ["ScriptContext"] =
      .ok (entryHead ["_", "_", "ctx"] ++ selfApply "main" ++
           joinComma ["ctx"] ++ rejectTail) ∧
    rToIR "main" ["Redeemer", "ScriptContext"] =
      .ok (entryHead ["redeemer", "ctx"] ++ selfApply "main" ++
           joinComma ["redeemer", "ctx"] ++ rejectTail) := by
  constructor
  · exact lowered_entry_point_wrapper.1 ["ScriptContext"] [Ty.bool] "main" (by decide)
  · exact lowered_entry_point_wrapper.2.1 ["Redeemer", "ScriptContext"] [Ty.bool] "main" (by decide)

/-! ## Mutual recursion injection (`Program.injectMutualRecursions`)

The source rewrites IR text with the regex `\b<key>\b`.  Keys are composed
of word characters, so a word-boundary match of a key is exactly an
occurrence of the key as a maximal identifier; we therefore model IR text
as a list of tokens (identifiers and non-identifier atoms) and the regex
replacement as token-level substitution of the identifier token.
-/

/-- An IR text token: an identifier, or any non-identifier atom. -/
inductive Tok where
  | id (s : String)
  | sym (s : String)
deriving DecidableEq, Repr

/-- An IR definition body, as token text. -/
abbrev Body := List Tok

/-- The insertion-ordered definition map, as an association list. -/
abbrev Defs := List (String × Body)

/-- Token form of the application text `k(o1, o2, ..., om)`. -/
def appTok (k : String) (others : List String) : Body :=
  [.id k, .sym "("] ++ (others.map Tok.id).intersperse (.sym ", ") ++ [.sym ")"]

/-- Token form of the wrapper text `(o1, ..., om) -> { body }`. -/
def wrapTok (others : List String) (b : Body) : Body :=
  [.sym "("] ++ (others.map Tok.id).intersperse (.sym ", ") ++ [.sym ") -> \x7b"] ++
    b ++ [.sym "\x7d"]

/-- `text.replace(new RegExp("\\b" + k + "\\b", "gm"), repl)` on token
text: every occurrence of the identifier `k` becomes `repl`. -/
def replaceTok (k : String) (repl : Body) (b : Body) : Body :=
  b.flatMap (fun t => if t = .id k then repl else [t])

/--
One iteration of the `for (let i = keys.length - 1; i >= 0; i--)` loop of
`Program.injectMutualRecursions`, for `others = keys.slice(i)` (so `k =
keys[i]` is the head): first every definition has `\bk\b` replaced by the
application `k(others...)`, then the definition stored under `k` is
wrapped as a function taking `others` as parameters.
-/
def passEntry (k : String) (others : List String) (kb : String × Body) : String × Body :=
  let b2 := replaceTok k (appTok k others) kb.2
  if kb.1 = k then (kb.1, wrapTok others b2) else (kb.1, b2)

def passOn (others : List String) (d : Defs) : Defs :=
  match others with
  | [] => d
  | k :: _ => d.map (passEntry k others)

/-- The descending loop of `Program.injectMutualRecursions`: the pass for
the shortest trailing key set runs first. -/
def injectLoop : List String → Defs → Defs
  | [], d => d
  | k :: rest, d => passOn (k :: rest) (injectLoop rest d)

/-- `Program.injectMutualRecursions` on the token model. -/
def injectMutualRecursions (d : Defs) : Defs :=
  injectLoop (d.map Prod.fst) d

/--
Rewrite one token under a family of trailing key sets: an identifier that
is the head of one of the `suffixes` becomes the application passing that
whole trailing key set (itself included); all other tokens are unchanged.
-/
def rwTok (suffixes : List (List String)) (t : Tok) : Body :=
  match t with
  | .id s =>
    match suffixes.find? (fun l => l.head? = some s) with
    | some l => appTok s l
    | none => [.id s]
  | .sym s => [.sym s]

/-- Rewrite a body: every occurrence of a key of `keys` becomes the
application passing the trailing key set starting at that key. -/
def rwBody (keys : List String) (b : Body) : Body :=
  b.flatMap (rwTok keys.tails)

/--
The expected final definition map: the body of every definition has every
occurrence of every key `k_j` rewritten into the application
`k_j(k_j, ..., k_(n-1))`, and the definition stored under `k_i` is wrapped
as a function whose parameter list is exactly the trailing key set
`k_i, ..., k_(n-1)`.
-/
def injected (keys : List String) : Defs → Defs
  | [] => []
  | kb :: rest =>
    (kb.1, wrapTok (kb.1 :: rest.map Prod.fst) (rwBody keys kb.2)) ::
      injected keys rest

/-- Intermediate state of the descending loop: the first `u` definitions
are not yet wrapped (their pass has not run), the rest are. -/
def partialState (s : List String) : Nat → Defs → Defs
  | 0, d => injected s d
  | _ + 1, [] => []
  | u + 1, kb :: rest => (kb.1, rwBody s kb.2) :: partialState s u rest

theorem mem_intersperse {α : Type} {a b : α} :
    ∀ {l : List α}, a ∈ l.intersperse b → a = b ∨ a ∈ l
  | [], h => by simp [List.intersperse] at h
  | [x], h => by
      rw [List.intersperse_singleton] at h
      exact Or.inr h
  | x :: y :: tl, h => by
      rw [List.intersperse_cons_cons] at h
      rcases List.mem_cons.mp h with rfl | h2
      · exact Or.inr (by simp)
      · rcases List.mem_cons.mp h2 with rfl | h3
        · exact Or.inl rfl
        · rcases mem_intersperse h3 with h4 | h4
          · exact Or.inl h4
          · exact Or.inr (List.mem_cons_of_mem _ h4)

/-- Replacement is the identity on token text free of the identifier. -/
theorem replaceTok_id_free (k : String) (r : Body) :
    ∀ (xs : Body), (∀ t ∈ xs, t ≠ .id k) → replaceTok k r xs = xs := by
  intro xs
  induction xs with
  | nil => intro _; rfl
  | cons t ts ih =>
    intro h
    have ht : t ≠ .id k := h t (by simp)
    simp only [replaceTok, List.flatMap_cons, if_neg ht]
    rw [show ts.flatMap (fun t => if t = .id k then r else [t]) = ts from
      ih (fun t' ht' => h t' (by simp [ht']))]
    rfl

theorem replaceTok_append (k : String) (r : Body) (xs ys : Body) :
    replaceTok k r (xs ++ ys) = replaceTok k r xs ++ replaceTok k r ys :=
  List.flatMap_append xs ys _

/-- Every token of the comma-separated identifier list of `l` is an
identifier of `l` or the separator. -/
theorem sep_ids_ne {k : String} {l : List String} (hk : k ∉ l) :
    ∀ t ∈ (l.map Tok.id).intersperse (.sym ", "), t ≠ .id k := by
  intro t ht
  rcases mem_intersperse ht with rfl | h2
  · intro hc; cases hc
  · obtain ⟨x, hx, rfl⟩ := List.mem_map.mp h2
    intro hc
    cases hc
    exact hk hx

/-- Replacement leaves any single non-identifier atom unchanged. -/
theorem replaceTok_sym (k : String) (r : Body) (s : String) :
    replaceTok k r [.sym s] = [.sym s] := by
  apply replaceTok_id_free
  intro t ht
  simp only [List.mem_singleton] at ht
  subst ht
  intro hc
  cases hc

/-- Replacing `k` inside an application whose head and arguments avoid `k`
is the identity. -/
theorem replaceTok_appTok {k s : String} {l : List String} (r : Body)
    (hs : s ≠ k) (hl : k ∉ l) : replaceTok k r (appTok s l) = appTok s l := by
  apply replaceTok_id_free
  intro t ht
  unfold appTok at ht
  rcases List.mem_append.mp ht with h01 | hlast
  · rcases List.mem_append.mp h01 with h0 | hmid
    · intro hc
      subst hc
      simp only [List.mem_cons, List.not_mem_nil, or_false] at h0
      rcases h0 with h0 | h0
      · cases h0; exact hs rfl
      · cases h0
    · exact sep_ids_ne hl t hmid
  · intro hc
    subst hc
    simp only [List.mem_singleton] at hlast
    cases hlast

/-- Replacing `k` commutes into the body of a wrapper whose parameters
avoid `k`. -/
theorem replaceTok_wrapTok {k : String} {hdr : List String} (r : Body) (b : Body)
    (hh : k ∉ hdr) :
    replaceTok k r (wrapTok hdr b) = wrapTok hdr (replaceTok k r b) := by
  unfold wrapTok
  simp only [replaceTok_append, replaceTok_sym]
  rw [replaceTok_id_free k r ((hdr.map Tok.id).intersperse (.sym ", ")) (sep_ids_ne hh)]

/-- `find?` over the tails of a list misses identifiers not in the list. -/
theorem find?_tails_none {s : String} :
    ∀ {keys : List String}, s ∉ keys →
      keys.tails.find? (fun l => l.head? = some s) = none := by
  intro keys
  induction keys with
  | nil => intro _; rfl
  | cons k ks ih =>
    intro hs
    have hk : ¬(k = s) := by
      intro hc
      exact hs (by simp [hc])
    rw [List.tails_cons, List.find?_cons_of_neg _ (by simp [hk])]
    exact ih (fun hc => hs (List.mem_cons_of_mem _ hc))

/-- The per-token composition step: replacing `k` after the rewrite for
the trailing sets of `rest` gives the rewrite for the trailing sets of
`k :: rest`. -/
theorem rwTok_cons {k : String} {rest : List String} (hnd : (k :: rest).Nodup)
    (t : Tok) :
    (rwTok rest.tails t).flatMap
        (fun t' => if t' = .id k then appTok k (k :: rest) else [t']) =
      rwTok ((k :: rest).tails) t := by
  have hk : k ∉ rest := (List.nodup_cons.mp hnd).1
  cases t with
  | sym s => simp [rwTok]
  | id s =>
    by_cases hs : s = k
    · subst hs
      simp only [rwTok, find?_tails_none hk, List.tails_cons]
      rw [List.find?_cons_of_pos _ (by simp)]
      simp
    · have hsk : ¬(k = s) := by
        intro hc
        exact hs hc.symm
      simp only [rwTok, List.tails_cons]
      rw [List.find?_cons_of_neg _ (by simp [hsk])]
      cases hfind : rest.tails.find? (fun l => l.head? = some s) with
      | none => simp [hs]
      | some l =>
        have hmem : l <:+ rest := (List.mem_tails _ _).mp (List.mem_of_find?_eq_some hfind)
        have hknotl : k ∉ l := fun hc => hk (hmem.subset hc)
        show (appTok s l).flatMap _ = appTok s l
        exact replaceTok_appTok _ hs hknotl

/-- The body-level composition step. -/
theorem replace_rwBody {k : String} {rest : List String} (hnd : (k :: rest).Nodup)
    (b : Body) :
    replaceTok k (appTok k (k :: rest)) (rwBody rest b) = rwBody (k :: rest) b := by
  unfold replaceTok rwBody
  rw [List.flatMap_assoc]
  apply List.flatMap_congr
  intro t _
  exact rwTok_cons hnd t

theorem rwTok_nil (t : Tok) : rwTok (List.tails []) t = [t] := by
  cases t <;> rfl

/-- Rewriting under an empty key list is the identity. -/
theorem rwBody_nil (b : Body) : rwBody [] b = b := by
  unfold rwBody
  induction b with
  | nil => rfl
  | cons t ts ih => rw [List.flatMap_cons, rwTok_nil, ih]; rfl

/-- Before any pass has run (all entries unwrapped, no keys processed),
the state is the original definition map. -/
theorem partialState_nil (d : Defs) : ∀ i, d.length ≤ i → partialState [] i d = d := by
  induction d with
  | nil => intro i _; cases i <;> rfl
  | cons kb dtl ih =>
    intro i hi
    match i with
    | 0 => simp at hi
    | i' + 1 =>
      show (kb.1, rwBody [] kb.2) :: partialState [] i' dtl = kb :: dtl
      rw [rwBody_nil, ih i' (Nat.le_of_succ_le_succ hi)]

/-- Running the pass for `k :: rest` over already wrapped definitions
whose keys avoid `k` rewrites their bodies in place. -/
theorem passOn_wrapped {k : String} {rest : List String} (hnd : (k :: rest).Nodup) :
    ∀ (d : Defs), k ∉ d.map Prod.fst →
      (partialState rest 0 d).map (passEntry k (k :: rest)) = partialState (k :: rest) 0 d := by
  intro d
  induction d with
  | nil => intro _; rfl
  | cons kb dtl ih =>
    intro hk
    have hk1 : kb.1 ≠ k := by
      intro hc
      exact hk (by simp [hc])
    have hk2 : k ∉ dtl.map Prod.fst := by
      intro hc
      exact hk (by simp [hc])
    have hkhdr : k ∉ kb.1 :: dtl.map Prod.fst := by simpa using hk
    show (passEntry k (k :: rest)
        (kb.1, wrapTok (kb.1 :: dtl.map Prod.fst) (rwBody rest kb.2))) ::
        (partialState rest 0 dtl).map (passEntry k (k :: rest)) =
      (kb.1, wrapTok (kb.1 :: dtl.map Prod.fst) (rwBody (k :: rest) kb.2)) ::
        injected (k :: rest) dtl
    rw [ih hk2]
    simp only [passEntry, if_neg hk1]
    rw [replaceTok_wrapTok _ _ hkhdr, replace_rwBody hnd]
    rfl

/-- The key step: running the pass for the trailing key set `k :: rest`
over the state in which all later passes have run produces the state in
which this pass has run as well. -/
theorem passOn_partialState {k : String} {rest : List String} (hnd : (k :: rest).Nodup) :
    ∀ (d : Defs) (u : Nat),
      (∀ e, d[u]? = some e → e.1 = k ∧ rest = (d.drop (u + 1)).map Prod.fst) →
      (∀ j e, j ≠ u → d[j]? = some e → e.1 ≠ k) →
      passOn (k :: rest) (partialState rest (u + 1) d) = partialState (k :: rest) u d := by
  intro d
  induction d with
  | nil => intro u _ _; cases u <;> rfl
  | cons kb dtl ih =>
    intro u hu hj
    match u with
    | 0 =>
      obtain ⟨hfst, hrest⟩ := hu kb (by simp)
      have hkdtl : k ∉ dtl.map Prod.fst := by
        intro hc
        obtain ⟨e, he, hek⟩ := List.mem_map.mp hc
        obtain ⟨j, hje⟩ := List.mem_iff_getElem?.mp he
        exact hj (j + 1) e (Nat.succ_ne_zero j) (by simpa using hje) hek
      have hnd2 := hnd
      show ((kb.1, rwBody rest kb.2) :: partialState rest 0 dtl).map
          (passEntry k (k :: rest)) =
        (kb.1, wrapTok (kb.1 :: dtl.map Prod.fst) (rwBody (k :: rest) kb.2)) ::
          injected (k :: rest) dtl
      rw [List.map_cons]
      have htail : (partialState rest 0 dtl).map (passEntry k (k :: rest)) =
          partialState (k :: rest) 0 dtl := passOn_wrapped hnd dtl hkdtl
      rw [htail]
      simp only [passEntry, if_pos hfst]
      rw [replace_rwBody hnd]
      have : (dtl.drop 0).map Prod.fst = dtl.map Prod.fst := by rw [List.drop_zero]
      rw [show rest = dtl.map Prod.fst from by
        rw [hrest]; simp]
      rw [hfst]
      rfl
    | u' + 1 =>
      have hfst : kb.1 ≠ k := hj 0 kb (by omega) (by simp)
      show ((kb.1, rwBody rest kb.2) :: partialState rest (u' + 1) dtl).map
          (passEntry k (k :: rest)) =
        (kb.1, rwBody (k :: rest) kb.2) :: partialState (k :: rest) u' dtl
      rw [List.map_cons]
      have htail := ih u'
        (fun e he => by
          obtain ⟨h1, h2⟩ := hu e (by simpa using he)
          exact ⟨h1, by simpa using h2⟩)
        (fun j e hju he => hj (j + 1) e (by omega) (by simpa using he))
      show passEntry k (k :: rest) (kb.1, rwBody rest kb.2) ::
          (partialState rest (u' + 1) dtl).map (passEntry k (k :: rest)) = _
      have hpass : (partialState rest (u' + 1) dtl).map (passEntry k (k :: rest)) =
          partialState (k :: rest) u' dtl := htail
      rw [hpass]
      simp only [passEntry, if_neg hfst]
      rw [replace_rwBody hnd]

/-- The descending loop starting from the trailing key set `keys.drop i`
computes the state in which passes `i` and later have run. -/
theorem injectLoop_eq {defs : Defs} (hnd : (defs.map Prod.fst).Nodup) :
    ∀ (s : List String) (i : Nat), (defs.map Prod.fst).drop i = s →
      injectLoop s defs = partialState s i defs := by
  intro s
  induction s with
  | nil =>
    intro i hdrop
    have hlen : (defs.map Prod.fst).length ≤ i := by
      rw [← List.drop_eq_nil_iff]
      exact hdrop
    rw [List.length_map] at hlen
    show defs = partialState [] i defs
    rw [partialState_nil defs i hlen]
  | cons k rest ih =>
    intro i hdrop
    have hdropsucc : (defs.map Prod.fst).drop (i + 1) = rest := by
      rw [← List.tail_drop, hdrop]
      rfl
    have hnd2 : (k :: rest).Nodup := by
      rw [← hdrop]
      exact hnd.sublist (List.drop_sublist _ _)
    have hhead : (defs.map Prod.fst)[i]? = some k := by
      have := congrArg List.head? hdrop
      rw [List.head?_drop] at this
      simpa using this
    show passOn (k :: rest) (injectLoop rest defs) = partialState (k :: rest) i defs
    rw [ih (i + 1) hdropsucc]
    apply passOn_partialState hnd2
    · intro e he
      constructor
      · have h1 : (defs.map Prod.fst)[i]? = some e.1 := by
          rw [List.getElem?_map, he]
          rfl
        rw [h1] at hhead
        simpa using hhead
      · rw [List.map_drop]
        exact hdropsucc.symm
    · intro j e hji he hc
      have h1 : (defs.map Prod.fst)[j]? = some k := by
        rw [List.getElem?_map, he]
        simp [hc]
      have hjlt : j < (defs.map Prod.fst).length := by
        by_contra hge
        rw [List.getElem?_eq_none (Nat.le_of_not_lt hge)] at h1
        cases h1
      apply hji
      apply List.getElem?_inj hjlt hnd
      rw [h1, hhead]

/--
C4: after `Program.injectMutualRecursions` on a definition map with keys
`k_0 ... k_(n-1)` in insertion order, every occurrence of key `k_j`
inside any definition body has been rewritten into the application
`k_j(k_j, k_(j+1), ..., k_(n-1))` passing the trailing key set (itself
included) as extra arguments, and the definition bound to `k_i` has been
wrapped as a function whose parameter list is exactly the trailing key
set `k_i, ..., k_(n-1)` — i.e. the map equals `injected`.
-/
theorem inject_mutual_recursions_rewrites (defs : Defs)
    (hnd : (defs.map Prod.fst).Nodup) :
    injectMutualRecursions defs = injected (defs.map Prod.fst) defs := by
  have h := injectLoop_eq hnd (defs.map Prod.fst) 0 (by simp)
  rw [injectMutualRecursions, h]
  rfl

/--
Witness for C4: a two-entry map with mutually recursive definitions is
rewritten to the self-passing closed form.
-/
theorem inject_mutual_recursions_rewrites_witness :
    injectMutualRecursions [("f", [Tok.id "g"]), ("g", [Tok.id "f", Tok.sym "+"])] =
      injected ["f", "g"] [("f", [Tok.id "g"]), ("g", [Tok.id "f", Tok.sym "+"])] :=
  inject_mutual_recursions_rewrites _ (by decide)

/-! ## Module dependency resolution (`Module.filterDependencies`)

The source method recurses through imported modules with an explicit
"currently being resolved" stack.  The recursion is modelled with a fuel
parameter that decreases at every descent into an imported module; running
out of fuel is a distinguished error, and we prove it cannot happen once
the fuel exceeds the number of candidate modules (the recursion depth is
bounded, i.e. resolution terminates).
-/

/-- A module, reduced to what dependency resolution inspects: its name and
the imported module names of its import statements, in statement order. -/
structure Mod where
  name : String
  imports : List String
deriving DecidableEq, Repr

/--
Resolution errors.  `selfImport` stands for the fatal syntax error whose
source message says a module must not import itself, `circularImport` for
the fatal syntax error with message `circular import detected`,
`moduleNotFound` for the reference error naming the missing module, and
`outOfFuel` is the artefact of the fuel model.
-/
inductive ResErr where
  | selfImport
  | circularImport
  | moduleNotFound (name : String)
  | outOfFuel
deriving DecidableEq, Repr

/--
The import loop of `Module.filterDependencies`, parameterised by the
recursive descent `fd` (the call `m.filterDependencies(modules, newStack)`
of the source): `self` is the module being resolved, `stack` the modules
currently being resolved further up, `l` the import names still to
process and `deps` the dependencies accumulated so far.
-/
def resolveList (fd : Mod → List Mod → Except ResErr (List Mod)) (self : Mod)
    (modules stack : List Mod) : List String → List Mod → Except ResErr (List Mod)
  | [], deps => .ok deps
  | mn :: rest, deps =>
    if mn = self.name then .error .selfImport
    else if stack.any (fun d => d.name = mn) then .error .circularImport
    else if deps.any (fun d => d.name = mn) then resolveList fd self modules stack rest deps
    else
      match modules.find? (fun m => m.name = mn) with
      | none => .error (.moduleNotFound mn)
      | some m =>
        match fd m (self :: stack) with
        | .error e => .error e
        | .ok sub =>
          resolveList fd self modules stack rest
            (deps ++ (sub ++ [m]).filter
              (fun d => !(deps.any (fun d2 => d2.name = d.name))))

/-- `Module.filterDependencies(modules, stack)` in the fuel model; each
entry into the method consumes one unit of fuel. -/
def filterDeps : Nat → Mod → List Mod → List Mod → Except ResErr (List Mod)
  | 0, _, _, _ => .error .outOfFuel
  | fuel + 1, self, modules, stack =>
    resolveList (fun m stk => filterDeps fuel m modules stk) self modules stack
      self.imports []

/-- The import loop at a given fuel level. -/
def resolveGo (fuel : Nat) (self : Mod) (modules stack : List Mod)
    (l : List String) (deps : List Mod) : Except ResErr (List Mod) :=
  resolveList (fun m stk => filterDeps fuel m modules stk) self modules stack l deps

theorem resolveGo_nil (fuel : Nat) (self : Mod) (modules stack deps) :
    resolveGo fuel self modules stack [] deps = .ok deps := rfl

theorem resolveGo_cons (fuel : Nat) (self : Mod) (modules stack : List Mod)
    (mn : String) (rest : List String) (deps : List Mod) :
    resolveGo fuel self modules stack (mn :: rest) deps =
      (if mn = self.name then .error .selfImport
      else if stack.any (fun d => d.name = mn) then .error .circularImport
      else if deps.any (fun d => d.name = mn) then
        resolveGo fuel self modules stack rest deps
      else
        match modules.find? (fun m => m.name = mn) with
        | none => .error (.moduleNotFound mn)
        | some m =>
          match filterDeps fuel m modules (self :: stack) with
          | .error e => .error e
          | .ok sub =>
            resolveGo fuel self modules stack rest
              (deps ++ (sub ++ [m]).filter
                (fun d => !(deps.any (fun d2 => d2.name = d.name))))) := rfl

theorem filterDeps_zero (self : Mod) (modules stack : List Mod) :
    filterDeps 0 self modules stack = .error .outOfFuel := rfl

theorem filterDeps_succ (fuel : Nat) (self : Mod) (modules stack : List Mod) :
    filterDeps (fuel + 1) self modules stack =
      resolveGo fuel self modules stack self.imports [] := rfl

/-- The number of candidate modules not currently on the resolution
stack: the measure that bounds the recursion depth. -/
def countFree (modules stack : List Mod) : Nat :=
  modules.countP (fun mm => !(stack.any (fun d => d.name = mm.name)))

theorem countP_lt_of_witness {α : Type} (p q : α → Bool) :
    ∀ (l : List α), (∀ y ∈ l, p y = true → q y = true) →
      ∀ x ∈ l, p x = false → q x = true → l.countP p < l.countP q := by
  intro l
  induction l with
  | nil => intro _ x hx; cases hx
  | cons y ys ih =>
    intro himp x hx hpx hqx
    have hmono : ys.countP p ≤ ys.countP q :=
      List.countP_mono_left (fun z hz => himp z (List.mem_cons_of_mem _ hz))
    rw [List.countP_cons, List.countP_cons]
    rcases List.mem_cons.mp hx with heq | hmem
    · subst heq
      rw [hpx, hqx]
      simp only [Bool.false_eq_true, if_false, if_true]
      omega
    · have hstrict := ih (fun z hz h => himp z (List.mem_cons_of_mem _ hz) h) x hmem hpx hqx
      by_cases hpy : p y = true
      · rw [if_pos hpy, if_pos (himp y (by simp) hpy)]
        omega
      · rw [if_neg hpy]
        by_cases hqy : q y = true
        · rw [if_pos hqy]; omega
        · rw [if_neg hqy]; omega

theorem countFree_cons_lt {modules stack : List Mod} {m : Mod}
    (hm : m ∈ modules) (hnot : stack.any (fun d => d.name = m.name) = false) :
    countFree modules (m :: stack) < countFree modules stack := by
  unfold countFree
  apply countP_lt_of_witness _ _ modules _ m hm
  · simp
  · rw [hnot]
    rfl
  · intro y _ hy
    simp only [Bool.not_eq_true', List.any_eq_false] at hy ⊢
    intro z hz
    exact hy z (List.mem_cons_of_mem _ hz)

theorem any_name_false_iff (nm : String) (l : List Mod) :
    (l.any fun d => d.name = nm) = false ↔ ∀ z ∈ l, z.name ≠ nm := by
  simp

theorem any_name_true_iff (nm : String) (l : List Mod) :
    (l.any fun d => d.name = nm) = true ↔ ∃ z ∈ l, z.name = nm := by
  simp

/-- With fuel at least the number of not-yet-stacked candidate modules,
the import loop never exhausts its fuel: the recursion depth is bounded. -/
theorem resolveGo_no_outOfFuel :
    ∀ (fuel : Nat) (self : Mod) (modules stack : List Mod) (l : List String) (deps : List Mod),
      countFree modules (self :: stack) ≤ fuel →
      resolveGo fuel self modules stack l deps ≠ .error .outOfFuel := by
  intro fuel
  induction fuel using Nat.strong_induction_on with
  | _ fuel ihf =>
    intro self modules stack l
    induction l with
    | nil =>
      intro deps _ h
      rw [resolveGo_nil] at h
      cases h
    | cons mn rest ihl =>
      intro deps hcf h
      rw [resolveGo_cons] at h
      split at h
      · cases h
      · split at h
        · cases h
        · split at h
          · exact ihl deps hcf h
          · rename_i hself hstack hdeps
            split at h
            · simp at h
            · rename_i m hfind
              have hname : m.name = mn := by
                have := List.find?_some hfind
                simpa using this
              have hmem : m ∈ modules := List.mem_of_find?_eq_some hfind
              have hnot : ((self :: stack).any fun d => d.name = m.name) = false := by
                simp only [List.any_cons, Bool.or_eq_false_iff]
                constructor
                · simp only [decide_eq_false_iff_not, hname]
                  intro hc
                  exact hself hc.symm
                · rw [hname]
                  simpa using hstack
              have hpos : 1 ≤ countFree modules (self :: stack) := by
                have := countFree_cons_lt hmem hnot
                omega
              cases fuel with
              | zero => omega
              | succ fuel' =>
                have hle : countFree modules (m :: self :: stack) ≤ fuel' := by
                  have := countFree_cons_lt hmem hnot
                  omega
                rw [filterDeps_succ] at h
                cases hsub : resolveGo fuel' m modules (self :: stack) m.imports [] with
                | error e =>
                  rw [hsub] at h
                  injection h with h2
                  subst h2
                  exact ihf fuel' (Nat.lt_succ_self fuel') m modules (self :: stack)
                    m.imports [] hle hsub
                | ok sub =>
                  rw [hsub] at h
                  exact ihl _ hcf h

/-- Every successfully resolved dependency is either pre-accumulated or
has a name not on the stack and different from the resolving module. -/
theorem resolveGo_ok_names :
    ∀ (fuel : Nat) (self : Mod) (modules stack : List Mod) (l : List String) (deps r : List Mod),
      resolveGo fuel self modules stack l deps = .ok r →
      ∀ d ∈ r, d ∈ deps ∨
        ((stack.any (fun s => s.name = d.name)) = false ∧ d.name ≠ self.name) := by
  intro fuel
  induction fuel using Nat.strong_induction_on with
  | _ fuel ihf =>
    intro self modules stack l
    induction l with
    | nil =>
      intro deps r h d hd
      rw [resolveGo_nil] at h
      cases h
      exact Or.inl hd
    | cons mn rest ihl =>
      intro deps r h d hd
      rw [resolveGo_cons] at h
      split at h
      · cases h
      · split at h
        · cases h
        · split at h
          · exact ihl deps r h d hd
          · rename_i hself hstack hdeps
            split at h
            · cases h
            · rename_i m hfind
              have hname : m.name = mn := by
                have := List.find?_some hfind
                simpa using this
              cases fuel with
              | zero => rw [filterDeps_zero] at h; cases h
              | succ fuel' =>
                rw [filterDeps_succ] at h
                cases hsub : resolveGo fuel' m modules (self :: stack) m.imports [] with
                | error e => rw [hsub] at h; cases h
                | ok sub =>
                  rw [hsub] at h
                  rcases ihl _ r h d hd with hin | hgood
                  · rcases List.mem_append.mp hin with hold | hnew
                    · exact Or.inl hold
                    · have hmem2 : d ∈ sub ++ [m] := List.mem_of_mem_filter hnew
                      right
                      rcases List.mem_append.mp hmem2 with hsubm | hm
                      · have := ihf fuel' (Nat.lt_succ_self fuel') m modules
                          (self :: stack) m.imports [] sub hsub d hsubm
                        rcases this with hnil | ⟨hst, _⟩
                        · cases hnil
                        · simp only [List.any_cons, Bool.or_eq_false_iff,
                            decide_eq_false_iff_not] at hst
                          exact ⟨by
                            simp only [List.any_eq_false, decide_eq_false_iff_not]
                            intro z hz
                            have := hst.2
                            simp only [List.any_eq_false, decide_eq_false_iff_not] at this
                            exact this z hz,
                            fun hc => hst.1 hc.symm⟩
                      · have hdm : d = m := by simpa using hm
                        subst hdm
                        constructor
                        · rw [hname]
                          simpa using hstack
                        · rw [hname]
                          intro hc
                          exact hself hc
                  · exact Or.inr hgood

/--
An import of a name already on the resolution stack can never be skipped
or resolved: processing it is a fatal error, so a module list containing
such an import never resolves successfully (given the accumulated
dependencies do not carry the name, which the stack check guarantees for
every reachable state).
-/
theorem resolveGo_stack_import_not_ok {aname : String} :
    ∀ (fuel : Nat) (self : Mod) (modules stack : List Mod) (l : List String) (deps r : List Mod),
      stack.any (fun s => s.name = aname) = true →
      aname ∈ l →
      deps.any (fun d => d.name = aname) = false →
      resolveGo fuel self modules stack l deps ≠ .ok r := by
  intro fuel self modules stack l
  induction l with
  | nil =>
    intro deps r _ hmem _
    cases hmem
  | cons mn rest ihl =>
    intro deps r hstacka hmem hdepsa h
    rw [resolveGo_cons] at h
    split at h
    · cases h
    · split at h
      · cases h
      · by_cases hmn : mn = aname
        · subst hmn
          rename_i hself hstack
          exact absurd hstacka (by simpa using hstack)
        · have hmemrest : aname ∈ rest := by
            rcases List.mem_cons.mp hmem with hc | hc
            · exact absurd hc.symm hmn
            · exact hc
          split at h
          · exact ihl deps r hstacka hmemrest hdepsa h
          · rename_i hself hstack hdeps
            split at h
            · cases h
            · rename_i m hfind
              have hname : m.name = mn := by
                have := List.find?_some hfind
                simpa using this
              cases fuel with
              | zero => rw [filterDeps_zero] at h; cases h
              | succ fuel' =>
                rw [filterDeps_succ] at h
                cases hsub : resolveGo fuel' m modules (self :: stack) m.imports [] with
                | error e => rw [hsub] at h; cases h
                | ok sub =>
                  rw [hsub] at h
                  have hbig : ((deps ++ (sub ++ [m]).filter
                      (fun d => !(deps.any (fun d2 => d2.name = d.name)))).any
                      (fun d => d.name = aname)) = false := by
                    rw [any_name_false_iff]
                    intro z hz
                    rcases List.mem_append.mp hz with hold | hnew
                    · exact (any_name_false_iff _ _).mp hdepsa z hold
                    · have hmem2 : z ∈ sub ++ [m] := List.mem_of_mem_filter hnew
                      rcases List.mem_append.mp hmem2 with hsubm | hmz
                      · have hinv := resolveGo_ok_names fuel' m modules (self :: stack)
                          m.imports [] sub hsub z hsubm
                        rcases hinv with hnil | ⟨hst, _⟩
                        · cases hnil
                        · intro hc
                          obtain ⟨s, hs, hsn⟩ := (any_name_true_iff _ _).mp hstacka
                          have hall := (any_name_false_iff _ _).mp hst
                          exact hall s (List.mem_cons_of_mem _ hs) (hsn.trans hc.symm)
                      · have hzm : z = m := by simpa using hmz
                        subst hzm
                        rw [hname]
                        exact hmn
                  exact ihl _ r hstacka hmemrest hbig h

/--
While a module named `aname` is on the resolution stack and `aname` is
an import of the module `b` found for name `bname`, no module named `bname`
can enter any successful resolution result (it would have to be resolved
itself, which the stack check forbids).
-/
theorem resolveGo_no_b_on_a_stack {aname : String} {b : Mod} {modules : List Mod}
    (hba : aname ∈ b.imports)
    (hfindb : modules.find? (fun m => m.name = b.name) = some b) :
    ∀ (fuel : Nat) (self : Mod) (stack : List Mod) (l : List String) (deps r : List Mod),
      stack.any (fun s => s.name = aname) = true →
      resolveGo fuel self modules stack l deps = .ok r →
      ∀ d ∈ r, d ∈ deps ∨ d.name ≠ b.name := by
  intro fuel
  induction fuel using Nat.strong_induction_on with
  | _ fuel ihf =>
    intro self stack l
    induction l with
    | nil =>
      intro deps r _ h d hd
      rw [resolveGo_nil] at h
      cases h
      exact Or.inl hd
    | cons mn rest ihl =>
      intro deps r hstacka h d hd
      rw [resolveGo_cons] at h
      split at h
      · cases h
      · split at h
        · cases h
        · split at h
          · exact ihl deps r hstacka h d hd
          · rename_i hself hstack hdeps
            split at h
            · cases h
            · rename_i m hfind
              have hname : m.name = mn := by
                have := List.find?_some hfind
                simpa using this
              cases fuel with
              | zero => rw [filterDeps_zero] at h; cases h
              | succ fuel' =>
                rw [filterDeps_succ] at h
                cases hsub : resolveGo fuel' m modules (self :: stack) m.imports [] with
                | error e => rw [hsub] at h; cases h
                | ok sub =>
                  rw [hsub] at h
                  have hstacka2 : ((self :: stack).any fun s => s.name = aname) = true := by
                    simp only [List.any_cons, Bool.or_eq_true]
                    exact Or.inr hstacka
                  have hmnb : mn ≠ b.name := by
                    intro hc
                    subst hc
                    rw [hfindb] at hfind
                    cases hfind
                    exact resolveGo_stack_import_not_ok fuel' b modules (self :: stack)
                      b.imports [] sub hstacka2 hba rfl hsub
                  rcases ihl _ r hstacka h d hd with hin | hgood
                  · rcases List.mem_append.mp hin with hold | hnew
                    · exact Or.inl hold
                    · right
                      have hmem2 : d ∈ sub ++ [m] := List.mem_of_mem_filter hnew
                      rcases List.mem_append.mp hmem2 with hsubm | hm
                      · have := ihf fuel' (Nat.lt_succ_self fuel') m (self :: stack)
                          m.imports [] sub hstacka2 hsub d hsubm
                        rcases this with hnil | hnb
                        · cases hnil
                        · exact hnb
                      · have hdm : d = m := by simpa using hm
                        subst hdm
                        rw [hname]
                        exact hmnb
                  · exact Or.inr hgood

/--
Resolving a module `a` that mutually imports a module `b` (each imports
the other, distinct names, `b` present in the candidate set) always fails:
the recursion detects the cycle through the stack.
-/
theorem resolveGo_mutual_cycle_not_ok {a b : Mod} {modules : List Mod}
    (hba : a.name ∈ b.imports)
    (hfindb : modules.find? (fun m => m.name = b.name) = some b) :
    ∀ (fuel : Nat) (l : List String) (deps r : List Mod),
      b.name ∈ l →
      deps.any (fun d => d.name = b.name) = false →
      resolveGo fuel a modules [] l deps ≠ .ok r := by
  intro fuel l
  induction l with
  | nil =>
    intro deps r hmem _
    cases hmem
  | cons mn rest ihl =>
    intro deps r hmem hdepsb h
    rw [resolveGo_cons] at h
    split at h
    · cases h
    · split at h
      · cases h
      · by_cases hmn : mn = b.name
        · subst hmn
          split at h
          · rename_i hdeps
            rw [hdepsb] at hdeps
            cases hdeps
          · rename_i hself hstack hdeps
            split at h
            · rename_i hfindnone
              rw [hfindb] at hfindnone
              cases hfindnone
            · rename_i m hfind
              rw [hfindb] at hfind
              injection hfind with hbm
              subst hbm
              cases fuel with
              | zero => rw [filterDeps_zero] at h; cases h
              | succ fuel' =>
                rw [filterDeps_succ] at h
                cases hsub : resolveGo fuel' b modules (a :: []) b.imports [] with
                | error e => rw [hsub] at h; cases h
                | ok sub =>
                  have hstacka : (([a] : List Mod).any fun s => s.name = a.name) = true := by
                    simp
                  exact resolveGo_stack_import_not_ok fuel' b modules [a]
                    b.imports [] sub hstacka hba rfl hsub
        · have hmemrest : b.name ∈ rest := by
            rcases List.mem_cons.mp hmem with hc | hc
            · exact absurd hc.symm hmn
            · exact hc
          split at h
          · exact ihl deps r hmemrest hdepsb h
          · rename_i hself hstack hdeps
            split at h
            · cases h
            · rename_i m hfind
              have hname : m.name = mn := by
                have := List.find?_some hfind
                simpa using this
              cases fuel with
              | zero => rw [filterDeps_zero] at h; cases h
              | succ fuel' =>
                rw [filterDeps_succ] at h
                cases hsub : resolveGo fuel' m modules (a :: []) m.imports [] with
                | error e => rw [hsub] at h; cases h
                | ok sub =>
                  rw [hsub] at h
                  have hstacka : (([a] : List Mod).any fun s => s.name = a.name) = true := by
                    simp
                  have hbig : ((deps ++ (sub ++ [m]).filter
                      (fun d => !(deps.any (fun d2 => d2.name = d.name)))).any
                      (fun d => d.name = b.name)) = false := by
                    rw [any_name_false_iff]
                    intro z hz
                    rcases List.mem_append.mp hz with hold | hnew
                    · exact (any_name_false_iff _ _).mp hdepsb z hold
                    · have hmem2 : z ∈ sub ++ [m] := List.mem_of_mem_filter hnew
                      rcases List.mem_append.mp hmem2 with hsubm | hmz
                      · have hinv := resolveGo_no_b_on_a_stack hba hfindb fuel' m [a]
                          m.imports [] sub hstacka hsub z hsubm
                        rcases hinv with hnil | hnb
                        · cases hnil
                        · exact hnb
                      · have hzm : z = m := by simpa using hmz
                        subst hzm
                        rw [hname]
                        exact hmn
                  exact ihl _ r hmemrest hbig h

/-- A module whose import list mentions its own name never resolves. -/
theorem resolveGo_self_import_not_ok :
    ∀ (fuel : Nat) (self : Mod) (modules stack : List Mod) (l : List String) (deps r : List Mod),
      self.name ∈ l → resolveGo fuel self modules stack l deps ≠ .ok r := by
  intro fuel self modules stack l
  induction l with
  | nil =>
    intro deps r hmem
    cases hmem
  | cons mn rest ihl =>
    intro deps r hmem h
    rw [resolveGo_cons] at h
    split at h
    · cases h
    · rename_i hself
      have hmemrest : self.name ∈ rest := by
        rcases List.mem_cons.mp hmem with hc | hc
        · exact absurd hc.symm hself
        · exact hc
      split at h
      · cases h
      · split at h
        · exact ihl deps r hmemrest h
        · split at h
          · cases h
          · rename_i m hfind
            cases fuel with
            | zero => rw [filterDeps_zero] at h; cases h
            | succ fuel' =>
              rw [filterDeps_succ] at h
              cases hsub : resolveGo fuel' m modules (self :: stack) m.imports [] with
              | error e => rw [hsub] at h; cases h
              | ok sub =>
                rw [hsub] at h
                exact ihl _ r hmemrest h

/--
The general cycle lemma.  Let `c` be a nonempty family of candidate
modules each of which imports some member of the family (any import
cycle m0 -> m1 -> ... -> m0 of length two or more yields such a family,
as does a self-import).  Then simultaneously, by strong induction on the
fuel: (A) no successful resolution, under any stack, ever adds a module
named like a family member — it would have to be resolved itself, which
fails; (B) resolving a family member always fails, whatever the stack:
the stack check catches the member currently stacked when the recursion
walks around the cycle; (L) a resolution whose remaining import list
mentions a family member (and whose accumulated dependencies do not)
always fails.
-/
theorem cycle_resolution_blocked {modules c : List Mod}
    (hfind : ∀ m ∈ c, modules.find? (fun x => x.name = m.name) = some m)
    (hnext : ∀ m ∈ c, ∃ m2 ∈ c, m2.name ∈ m.imports) :
    ∀ fuel : Nat,
      (∀ (self : Mod) (stack : List Mod) (l : List String) (deps r : List Mod),
        resolveGo fuel self modules stack l deps = .ok r →
        ∀ d ∈ r, d ∈ deps ∨ ∀ m ∈ c, d.name ≠ m.name) ∧
      (∀ self ∈ c, ∀ (stack : List Mod) (r : List Mod),
        filterDeps fuel self modules stack ≠ .ok r) ∧
      (∀ (self : Mod) (stack : List Mod) (l : List String) (deps r : List Mod),
        (∃ m ∈ c, m.name ∈ l) →
        (∀ m ∈ c, deps.any (fun d => d.name = m.name) = false) →
        resolveGo fuel self modules stack l deps ≠ .ok r) := by
  intro fuel
  induction fuel using Nat.strong_induction_on with
  | _ fuel ihf =>
    have hB : ∀ self ∈ c, ∀ (stack : List Mod) (r : List Mod),
        filterDeps fuel self modules stack ≠ .ok r := by
      intro self hselfc stack r h
      cases fuel with
      | zero => rw [filterDeps_zero] at h; cases h
      | succ fuel' =>
        rw [filterDeps_succ] at h
        obtain ⟨m2, hm2c, hm2i⟩ := hnext self hselfc
        exact (ihf fuel' (Nat.lt_succ_self fuel')).2.2 self stack self.imports [] r
          ⟨m2, hm2c, hm2i⟩ (fun m _ => rfl) h
    have hA : ∀ (self : Mod) (stack : List Mod) (l : List String) (deps r : List Mod),
        resolveGo fuel self modules stack l deps = .ok r →
        ∀ d ∈ r, d ∈ deps ∨ ∀ m ∈ c, d.name ≠ m.name := by
      intro self stack l
      induction l with
      | nil =>
        intro deps r h d hd
        rw [resolveGo_nil] at h
        cases h
        exact Or.inl hd
      | cons mn rest ihl =>
        intro deps r h d hd
        rw [resolveGo_cons] at h
        split at h
        · cases h
        · split at h
          · cases h
          · split at h
            · exact ihl deps r h d hd
            · split at h
              · cases h
              · rename_i m hfind2
                have hname : m.name = mn := by
                  have := List.find?_some hfind2
                  simpa using this
                cases fuel with
                | zero => rw [filterDeps_zero] at h; cases h
                | succ fuel' =>
                  rw [filterDeps_succ] at h
                  cases hsub : resolveGo fuel' m modules (self :: stack) m.imports [] with
                  | error e => rw [hsub] at h; cases h
                  | ok sub =>
                    rw [hsub] at h
                    by_cases hcyc : ∃ mc ∈ c, mc.name = mn
                    · obtain ⟨mc, hmcc, hmcn⟩ := hcyc
                      have hfmc := hfind mc hmcc
                      rw [hmcn] at hfmc
                      rw [hfind2] at hfmc
                      injection hfmc with hmc
                      exfalso
                      exact hB mc hmcc (self :: stack) sub
                        (by rw [filterDeps_succ, ← hmc]; exact hsub)
                    · push_neg at hcyc
                      rcases ihl _ r h d hd with hin | hgood
                      · rcases List.mem_append.mp hin with hold | hnew
                        · exact Or.inl hold
                        · right
                          have hmem2 : d ∈ sub ++ [m] := List.mem_of_mem_filter hnew
                          rcases List.mem_append.mp hmem2 with hsubm | hm
                          · have := (ihf fuel' (Nat.lt_succ_self fuel')).1 m (self :: stack)
                              m.imports [] sub hsub d hsubm
                            rcases this with hnil | hgood2
                            · cases hnil
                            · exact hgood2
                          · have hdm : d = m := by simpa using hm
                            subst hdm
                            intro mc hmcc hceq
                            rw [hname] at hceq
                            exact hcyc mc hmcc hceq.symm
                      · exact Or.inr hgood
    refine ⟨hA, hB, ?_⟩
    intro self stack l
    induction l with
    | nil =>
      intro deps r hex _ _
      obtain ⟨m0, _, hm0⟩ := hex
      cases hm0
    | cons mn rest ihl =>
      intro deps r hex hclean h
      rw [resolveGo_cons] at h
      split at h
      · cases h
      · split at h
        · cases h
        · by_cases hmncyc : ∃ mc ∈ c, mc.name = mn
          · obtain ⟨mc, hmcc, hmcn⟩ := hmncyc
            split at h
            · rename_i hdeps
              have hcl := hclean mc hmcc
              rw [hmcn] at hcl
              rw [hcl] at hdeps
              cases hdeps
            · split at h
              · cases h
              · rename_i m hfind2
                have hfmc := hfind mc hmcc
                rw [hmcn] at hfmc
                rw [hfind2] at hfmc
                injection hfmc with hmc
                cases fuel with
                | zero => rw [filterDeps_zero] at h; cases h
                | succ fuel' =>
                  rw [filterDeps_succ] at h
                  cases hsub : resolveGo fuel' m modules (self :: stack) m.imports [] with
                  | error e => rw [hsub] at h; cases h
                  | ok sub =>
                    exact hB mc hmcc (self :: stack) sub
                      (by rw [filterDeps_succ, ← hmc]; exact hsub)
          · push_neg at hmncyc
            obtain ⟨m0, hm0c, hm0l⟩ := hex
            have hm0rest : m0.name ∈ rest := by
              rcases List.mem_cons.mp hm0l with hc | hc
              · exact absurd hc (hmncyc m0 hm0c)
              · exact hc
            split at h
            · exact ihl deps r ⟨m0, hm0c, hm0rest⟩ hclean h
            · split at h
              · cases h
              · rename_i m hfind2
                have hname : m.name = mn := by
                  have := List.find?_some hfind2
                  simpa using this
                cases fuel with
                | zero => rw [filterDeps_zero] at h; cases h
                | succ fuel' =>
                  rw [filterDeps_succ] at h
                  cases hsub : resolveGo fuel' m modules (self :: stack) m.imports [] with
                  | error e => rw [hsub] at h; cases h
                  | ok sub =>
                    rw [hsub] at h
                    have hclean2 : ∀ mc ∈ c,
                        ((deps ++ (sub ++ [m]).filter
                          (fun d => !(deps.any (fun d2 => d2.name = d.name)))).any
                          (fun d => d.name = mc.name)) = false := by
                      intro mc hmcc
                      rw [any_name_false_iff]
                      intro z hz
                      rcases List.mem_append.mp hz with hold | hnew
                      · exact (any_name_false_iff _ _).mp (hclean mc hmcc) z hold
                      · have hmem2 : z ∈ sub ++ [m] := List.mem_of_mem_filter hnew
                        rcases List.mem_append.mp hmem2 with hsubm | hmz
                        · have := (ihf fuel' (Nat.lt_succ_self fuel')).1 m (self :: stack)
                            m.imports [] sub hsub z hsubm
                          rcases this with hnil | hgood
                          · cases hnil
                          · exact hgood mc hmcc
                        · have hzm : z = m := by simpa using hmz
                          subst hzm
                          rw [hname]
                          intro hc
                          exact hmncyc mc hmcc hc.symm
                    exact ihl _ r ⟨m0, hm0c, hm0rest⟩ hclean2 h

/--
C5: dependency resolution terminates — with fuel exceeding the number of
candidate modules it never runs out, so the recursion depth is bounded by
the module count; a module that imports itself raises the fatal
self-import syntax error (exactly, when the self-import is the first one,
and in any case it never resolves successfully); a mutual cycle of
imports between two modules never resolves successfully; in general,
any import cycle among two or more modules — any nonempty family of findable
candidate modules each importing a member of the family — makes the
resolution of every member fail, the cycle being caught through the
resolution stack (concretely, two modules each importing the other, and
a three-module cycle A -> B -> C -> A, produce the fatal
`circular import detected` syntax error).
-/
theorem dependency_resolution_contract :
    (∀ (self : Mod) (modules stack : List Mod),
      filterDeps (modules.length + 1) self modules stack ≠ .error .outOfFuel) ∧
    (∀ (fuel : Nat) (self : Mod) (modules stack : List Mod) (rest : List String),
      self.imports = self.name :: rest →
      filterDeps (fuel + 1) self modules stack = .error .selfImport) ∧
    (∀ (fuel : Nat) (self : Mod) (modules stack : List Mod) (r : List Mod),
      self.name ∈ self.imports →
      filterDeps fuel self modules stack ≠ .ok r) ∧
    (∀ (a b : Mod) (modules : List Mod) (fuel : Nat) (r : List Mod),
      b.name ∈ a.imports → a.name ∈ b.imports →
      modules.find? (fun m => m.name = b.name) = some b →
      filterDeps fuel a modules [] ≠ .ok r) ∧
    (∀ (c modules : List Mod) (a : Mod) (fuel : Nat) (stack : List Mod) (r : List Mod),
      a ∈ c →
      (∀ m ∈ c, modules.find? (fun x => x.name = m.name) = some m) →
      (∀ m ∈ c, ∃ m2 ∈ c, m2.name ∈ m.imports) →
      filterDeps fuel a modules stack ≠ .ok r) ∧
    (filterDeps 4 ⟨"A", ["B"]⟩ [⟨"A", ["B"]⟩, ⟨"B", ["C"]⟩, ⟨"C", ["A"]⟩] [] =
      .error .circularImport) ∧
    (filterDeps 3 ⟨"A", ["B"]⟩ [⟨"A", ["B"]⟩, ⟨"B", ["A"]⟩] [] = .error .circularImport) ∧
    (filterDeps 1 ⟨"M", ["M"]⟩ [] [] = .error .selfImport) := by
  refine ⟨?_, ?_, ?_, ?_, ?_, by decide, by decide, by decide⟩
  · intro self modules stack
    rw [filterDeps_succ]
    apply resolveGo_no_outOfFuel
    exact List.countP_le_length _
  · intro fuel self modules stack rest himp
    rw [filterDeps_succ, himp, resolveGo_cons, if_pos rfl]
  · intro fuel self modules stack r hmem h
    cases fuel with
    | zero => rw [filterDeps_zero] at h; cases h
    | succ fuel' =>
      rw [filterDeps_succ] at h
      exact resolveGo_self_import_not_ok fuel' self modules stack self.imports [] r hmem h
  · intro a b modules fuel r hab hba hfindb h
    cases fuel with
    | zero => rw [filterDeps_zero] at h; cases h
    | succ fuel' =>
      rw [filterDeps_succ] at h
      exact resolveGo_mutual_cycle_not_ok hba hfindb fuel' a.imports [] r hab rfl h
  · intro c modules a fuel stack r hac hfindc hnextc
    exact (cycle_resolution_blocked hfindc hnextc fuel).2.1 a hac stack r

/--
Witness for C5: the concrete two-module cycle, three-module cycle and
self-import fail, and a module with no imports resolves without running
out of fuel.
-/
theorem dependency_resolution_contract_witness :
    filterDeps 3 ⟨"A", ["B"]⟩ [⟨"A", ["B"]⟩, ⟨"B", ["A"]⟩] [] ≠ .ok [] ∧
    filterDeps 9 ⟨"B", ["C"]⟩ [⟨"A", ["B"]⟩, ⟨"B", ["C"]⟩, ⟨"C", ["A"]⟩] [] ≠ .ok [] ∧
    filterDeps 2 ⟨"M", ["M", "X"]⟩ [] [] ≠ .ok [] ∧
    filterDeps 1 ⟨"M", ["M"]⟩ [] [] = .error .selfImport ∧
    filterDeps 1 ⟨"A", []⟩ [] [] ≠ .error .outOfFuel :=
  ⟨dependency_resolution_contract.2.2.2.1 ⟨"A", ["B"]⟩ ⟨"B", ["A"]⟩
      [⟨"A", ["B"]⟩, ⟨"B", ["A"]⟩] 3 [] (by decide) (by decide) (by decide),
   dependency_resolution_contract.2.2.2.2.1
      [⟨"A", ["B"]⟩, ⟨"B", ["C"]⟩, ⟨"C", ["A"]⟩]
      [⟨"A", ["B"]⟩, ⟨"B", ["C"]⟩, ⟨"C", ["A"]⟩] ⟨"B", ["C"]⟩ 9 [] []
      (by decide) (by decide) (by decide),
   dependency_resolution_contract.2.2.1 2 ⟨"M", ["M", "X"]⟩ [] [] [] (by decide),
   dependency_resolution_contract.2.1 0 ⟨"M", ["M"]⟩ [] [] [] (by decide),
   dependency_resolution_contract.1 ⟨"A", []⟩ [] []⟩

/-! ## Function call checking (`FuncType.checkCall`)

Instances are modelled by their types: `DataInstance.isInstanceOf(type)`
and `FuncInstance.isInstanceOf(type)` both evaluate
`type.isBaseOf(this type)`.  The `namedArgs` JavaScript object is an
association list with unique keys, iterated in insertion order.
-/

/-- `ArgType`: an optionally named, optionally optional (defaulted)
argument of a `FuncType`. -/
structure ArgType where
  name : Option String
  type : Ty
  optional : Bool
deriving DecidableEq, Repr

/-- The `ArgType.name` getter: the empty string when the name is null. -/
def ArgType.argName (a : ArgType) : String := a.name.getD ""

/-- `ArgType.isNamed()`. -/
def ArgType.named (a : ArgType) : Bool := a.name.isSome

/-- `FuncType`: argument list and return types. -/
structure FuncTy where
  args : List ArgType
  rets : List Ty
deriving DecidableEq, Repr

/-- `FuncType.nNonOptArgs`. -/
def FuncTy.nNonOptArgs (ft : FuncTy) : Nat :=
  (ft.args.filter (fun a => !a.optional)).length

/--
The loop of the `posArgs.length < nNonOptArgs` branch of `checkCall`: for
every index below `nNonOptArgs`, the declared argument must be named and
present among the named arguments, else the first offending index raises.
Returns the first error, if any.
-/
def checkNonOptCovered (ft : FuncTy) (named : List (String × Ty)) : Option String :=
  (List.range ft.nNonOptArgs).findSome? (fun i =>
    match ft.args.get? i with
    | none => none
    | some a =>
      if !a.named then some "expected more positional args"
      else if (named.find? (fun kv => kv.1 = a.argName)).isNone then
        some ("named arg " ++ a.argName ++ " missing from call")
      else none)

/-- The positional type-check loop of `checkCall`. -/
def firstBadPos (ft : FuncTy) (pos : List Ty) : Option String :=
  (List.range pos.length).findSome? (fun i =>
    match pos.get? i, ft.args.get? i with
    | some pt, some a =>
      if !(isBaseOf a.type pt) then some ("wrong type for positional arg " ++ toString i)
      else none
    | _, _ => none)

/-- The named-argument loop of `checkCall`: unknown names, names already
covered by a positional argument, and type mismatches raise. -/
def firstBadNamed (ft : FuncTy) (posLen : Nat) (named : List (String × Ty)) :
    Option String :=
  named.findSome? (fun kv =>
    let i := ft.args.findIdx (fun a => a.argName = kv.1)
    if i = ft.args.length then some ("arg named " ++ kv.1 ++ " not found in function type")
    else if i < posLen then
      some ("named arg " ++ kv.1 ++ " already covered by positional arg")
    else
      match ft.args.get? i with
      | none => none
      | some a =>
        if !(isBaseOf a.type kv.2) then some ("wrong type for named arg " ++ kv.1)
        else none)

/-- The tail of `checkCall` shared by both entry branches. -/
def checkCallRest (ft : FuncTy) (pos : List Ty) (named : List (String × Ty)) :
    Except String (List Ty) :=
  match firstBadPos ft pos with
  | some e => .error e
  | none =>
    match firstBadNamed ft pos.length named with
    | some e => .error e
    | none => .ok ft.rets

/-- `FuncType.checkCall`. -/
def checkCall (ft : FuncTy) (pos : List Ty) (named : List (String × Ty)) :
    Except String (List Ty) :=
  if pos.length < ft.nNonOptArgs then
    match checkNonOptCovered ft named with
    | some e => .error e
    | none => checkCallRest ft pos named
  else if pos.length > ft.args.length then .error "expected fewer args"
  else checkCallRest ft pos named

/--
Modelled from the spec: the acceptance condition that C6 claims for
`checkCall` — a type error is raised exactly when fewer positional
arguments are supplied than the non-optional arguments *not covered by
names*, when more positional arguments are supplied than declared, when a
positional or named argument is not an instance of the declared type, when
a named argument is unknown, or when it targets a position already covered
positionally; otherwise the declared return types come back.
-/
def specCheckCallOk (ft : FuncTy) (pos : List Ty) (named : List (String × Ty)) : Bool :=
  ((ft.args.filter (fun a =>
      !a.optional && !(named.any (fun kv => kv.1 = a.argName)))).length ≤ pos.length) &&
  (pos.length ≤ ft.args.length) &&
  ((List.range pos.length).all (fun i =>
    match pos.get? i, ft.args.get? i with
    | some pt, some a => isBaseOf a.type pt
    | _, _ => true)) &&
  (named.all (fun kv =>
    let i := ft.args.findIdx (fun a => a.argName = kv.1)
    (i ≠ ft.args.length) && !(i < pos.length) &&
      (match ft.args.get? i with
       | none => true
       | some a => isBaseOf a.type kv.2)))

theorem nNonOptArgs_le (ft : FuncTy) : ft.nNonOptArgs ≤ ft.args.length :=
  List.length_filter_le _ _

theorem checkNonOptCovered_eq_none_iff (ft : FuncTy) (named : List (String × Ty)) :
    checkNonOptCovered ft named = none ↔
      ∀ i, i < ft.nNonOptArgs → ∀ a, ft.args.get? i = some a →
        a.named = true ∧ (named.find? (fun kv => kv.1 = a.argName)).isSome = true := by
  unfold checkNonOptCovered
  rw [List.findSome?_eq_none_iff]
  constructor
  · intro h i hi a hget
    have hcond := h i (List.mem_range.mpr hi)
    rw [hget] at hcond
    dsimp only at hcond
    by_cases hn : a.named = true
    · refine ⟨hn, ?_⟩
      cases hfind : named.find? (fun kv => kv.1 = a.argName) with
      | none => rw [if_neg (by simp [hn]), if_pos (by simp [hfind])] at hcond; cases hcond
      | some v => rfl
    · rw [if_pos (by simp [Bool.not_eq_true] at hn; simp [hn])] at hcond
      cases hcond
  · intro h i hi
    rw [List.mem_range] at hi
    cases hget : ft.args.get? i with
    | none => rfl
    | some a =>
      obtain ⟨hn, hs⟩ := h i hi a hget
      dsimp only
      cases hfind : named.find? (fun kv => kv.1 = a.argName) with
      | none => rw [hfind] at hs; cases hs
      | some v => rw [if_neg (by simp [hn]), if_neg (by simp [hfind])]

theorem firstBadPos_eq_none_iff (ft : FuncTy) (pos : List Ty) :
    firstBadPos ft pos = none ↔
      ∀ i pt a, pos.get? i = some pt → ft.args.get? i = some a →
        isBaseOf a.type pt = true := by
  unfold firstBadPos
  rw [List.findSome?_eq_none_iff]
  constructor
  · intro h i pt a hpos hget
    have hi : i < pos.length := by
      by_contra hge
      rw [List.get?_eq_none.mpr (Nat.le_of_not_lt hge)] at hpos
      cases hpos
    have hcond := h i (List.mem_range.mpr hi)
    rw [hpos, hget] at hcond
    dsimp only at hcond
    by_cases hb : isBaseOf a.type pt = true
    · exact hb
    · rw [if_pos (by simp [hb])] at hcond
      cases hcond
  · intro h i hi
    rw [List.mem_range] at hi
    cases hpos : pos.get? i with
    | none => rfl
    | some pt =>
      cases hget : ft.args.get? i with
      | none => rfl
      | some a =>
        dsimp only
        rw [if_neg (by simp [h i pt a hpos hget])]

theorem firstBadNamed_eq_none_iff (ft : FuncTy) (posLen : Nat)
    (named : List (String × Ty)) :
    firstBadNamed ft posLen named = none ↔
      ∀ kv ∈ named,
        ft.args.findIdx (fun a => a.argName = kv.1) ≠ ft.args.length ∧
        ¬(ft.args.findIdx (fun a => a.argName = kv.1) < posLen) ∧
        (∀ a, ft.args.get? (ft.args.findIdx (fun a => a.argName = kv.1)) = some a →
          isBaseOf a.type kv.2 = true) := by
  unfold firstBadNamed
  rw [List.findSome?_eq_none_iff]
  constructor
  · intro h kv hkv
    have hcond := h kv hkv
    dsimp only at hcond
    by_cases heq : ft.args.findIdx (fun a => a.argName = kv.1) = ft.args.length
    · rw [if_pos heq] at hcond
      cases hcond
    · refine ⟨heq, ?_, ?_⟩
      · intro hlt
        rw [if_neg heq, if_pos hlt] at hcond
        cases hcond
      · intro a hget
        by_cases hlt : ft.args.findIdx (fun a => a.argName = kv.1) < posLen
        · rw [if_neg heq, if_pos hlt] at hcond
          cases hcond
        · rw [if_neg heq, if_neg hlt, hget] at hcond
          dsimp only at hcond
          by_cases hbb : isBaseOf a.type kv.2 = true
          · exact hbb
          · rw [if_pos (by simp [hbb])] at hcond
            cases hcond
  · intro h kv hkv
    obtain ⟨h1, h2, h3⟩ := h kv hkv
    dsimp only
    rw [if_neg h1, if_neg h2]
    cases hget : ft.args.get? (ft.args.findIdx (fun a => a.argName = kv.1)) with
    | none => rfl
    | some a =>
      dsimp only
      rw [if_neg (by simp [h3 a hget])]

theorem checkCallRest_ok (ft : FuncTy) (pos : List Ty) (named : List (String × Ty)) :
    checkCallRest ft pos named = .ok ft.rets ↔
      (firstBadPos ft pos = none ∧ firstBadNamed ft pos.length named = none) := by
  unfold checkCallRest
  constructor
  · intro h
    cases hbp : firstBadPos ft pos with
    | some e => rw [hbp] at h; cases h
    | none =>
      rw [hbp] at h
      cases hbn : firstBadNamed ft pos.length named with
      | some e => rw [hbn] at h; cases h
      | none => exact ⟨rfl, rfl⟩
  · rintro ⟨h1, h2⟩
    rw [h1, h2]

theorem checkCallRest_ok_val (ft : FuncTy) (pos : List Ty) (named : List (String × Ty))
    (r : List Ty) (h : checkCallRest ft pos named = .ok r) : r = ft.rets := by
  unfold checkCallRest at h
  cases hbp : firstBadPos ft pos with
  | some e => rw [hbp] at h; cases h
  | none =>
    rw [hbp] at h
    cases hbn : firstBadNamed ft pos.length named with
    | some e => rw [hbn] at h; cases h
    | none =>
      rw [hbn] at h
      cases h
      rfl

/--
C6 (amended): `checkCall` returns the declared return types exactly when
(1) if fewer positional arguments are supplied than the number of
non-optional arguments, then every one of the first `nNonOptArgs` declared
arguments is named and supplied among the named arguments (coverage by
position is NOT taken into account in this branch — this is where the
claim as stated fails), (2) no more positional arguments are supplied than
declared, (3) every positional argument is an instance of the declared
parameter type, and (4) every named argument names a declared argument,
does not target a position already covered positionally, and is an
instance of the declared type; moreover any successful result is exactly
the declared return type list.
-/
theorem check_call_contract :
    (∀ (ft : FuncTy) (pos : List Ty) (named : List (String × Ty)),
      checkCall ft pos named = .ok ft.rets ↔
        ((pos.length < ft.nNonOptArgs →
            ∀ i, i < ft.nNonOptArgs → ∀ a, ft.args.get? i = some a →
              a.named = true ∧
              (named.find? (fun kv => kv.1 = a.argName)).isSome = true) ∧
         pos.length ≤ ft.args.length ∧
         (∀ i pt a, pos.get? i = some pt → ft.args.get? i = some a →
            isBaseOf a.type pt = true) ∧
         (∀ kv ∈ named,
            ft.args.findIdx (fun a => a.argName = kv.1) ≠ ft.args.length ∧
            ¬(ft.args.findIdx (fun a => a.argName = kv.1) < pos.length) ∧
            (∀ a, ft.args.get? (ft.args.findIdx (fun a => a.argName = kv.1)) = some a →
              isBaseOf a.type kv.2 = true)))) ∧
    (∀ (ft : FuncTy) (pos : List Ty) (named : List (String × Ty)) (r : List Ty),
      checkCall ft pos named = .ok r → r = ft.rets) := by
  constructor
  · intro ft pos named
    unfold checkCall
    by_cases hlt : pos.length < ft.nNonOptArgs
    · rw [if_pos hlt]
      cases hcov : checkNonOptCovered ft named with
      | some e =>
        constructor
        · intro h; cases h
        · rintro ⟨h1, _, _, _⟩
          have hnone := (checkNonOptCovered_eq_none_iff ft named).mpr (h1 hlt)
          rw [hcov] at hnone
          cases hnone
      | none =>
        rw [checkCallRest_ok]
        constructor
        · rintro ⟨hbp, hbn⟩
          exact ⟨fun _ => (checkNonOptCovered_eq_none_iff _ _).mp hcov,
            Nat.le_trans (Nat.le_of_lt hlt) (nNonOptArgs_le ft),
            (firstBadPos_eq_none_iff _ _).mp hbp,
            (firstBadNamed_eq_none_iff _ _ _).mp hbn⟩
        · rintro ⟨_, _, h3, h4⟩
          exact ⟨(firstBadPos_eq_none_iff _ _).mpr h3,
            (firstBadNamed_eq_none_iff _ _ _).mpr h4⟩
    · rw [if_neg hlt]
      by_cases hgt : pos.length > ft.args.length
      · rw [if_pos hgt]
        constructor
        · intro h; cases h
        · rintro ⟨_, h2, _, _⟩
          exact absurd h2 (by omega)
      · rw [if_neg hgt]
        rw [checkCallRest_ok]
        constructor
        · rintro ⟨hbp, hbn⟩
          exact ⟨fun hc => absurd hc hlt, by omega,
            (firstBadPos_eq_none_iff _ _).mp hbp,
            (firstBadNamed_eq_none_iff _ _ _).mp hbn⟩
        · rintro ⟨_, _, h3, h4⟩
          exact ⟨(firstBadPos_eq_none_iff _ _).mpr h3,
            (firstBadNamed_eq_none_iff _ _ _).mpr h4⟩
  · intro ft pos named r h
    unfold checkCall at h
    split at h
    · cases hcov : checkNonOptCovered ft named with
      | some e => rw [hcov] at h; cases h
      | none =>
        rw [hcov] at h
        exact checkCallRest_ok_val ft pos named r h
    · split at h
      · cases h
      · exact checkCallRest_ok_val ft pos named r h

/--
C6 counterexample: for `(a: Int, b: Int) -> Bool` called with one
positional `Int` and the named argument `b: Int`, every error condition
of the claim as stated is false (the only non-optional argument not
covered by a name, `a`, is covered positionally), yet `checkCall` raises
the type error that `a` is missing from the named arguments.
-/
theorem check_call_claim_counterexample :
    specCheckCallOk ⟨[⟨some "a", Ty.int, false⟩, ⟨some "b", Ty.int, false⟩], [Ty.bool]⟩
        [Ty.int] [("b", Ty.int)] = true ∧
    checkCall ⟨[⟨some "a", Ty.int, false⟩, ⟨some "b", Ty.int, false⟩], [Ty.bool]⟩
        [Ty.int] [("b", Ty.int)] = .error "named arg a missing from call" := by
  constructor
  · rfl
  · rfl

/-- Witness for C6: the result of a successful concrete call is exactly
the declared return type list. -/
theorem check_call_contract_witness :
    ([Ty.int] : List Ty) =
      (⟨[⟨some "x", Ty.int, false⟩], [Ty.int]⟩ : FuncTy).rets :=
  check_call_contract.2 ⟨[⟨some "x", Ty.int, false⟩], [Ty.int]⟩ [Ty.int] [] [Ty.int]
    (by decide)

/-! ### C3: generic inference binding (ParamTypeRef.infer) -/

/-- JS `Map.get` on the inference map, modelled as an association list in
insertion order. -/
def mapGet (map : List (String × Ty)) (name : String) : Option Ty :=
  (map.find? (fun kv => kv.1 = name)).map (fun kv => kv.2)

/-- JS `Map.set`: replace the value of an existing key in place, else
append the new binding. -/
def mapSet : List (String × Ty) → String → Ty → List (String × Ty)
  | [], name, t => [(name, t)]
  | kv :: rest, name, t =>
    if kv.1 = name then (name, t) :: rest else kv :: mapSet rest name t

/-- `ParamTypeRef.infer(site, map, type)`: if the parameter name is not in
the map, a supplied concrete type is stored and returned and a missing
one raises the internal error; if the name already has a binding, that
previous binding is returned unchanged — the supplied type is IGNORED,
with no comparison against the stored binding. -/
def paramInfer (name : String) (map : List (String × Ty)) (type : Option Ty) :
    Except String (Ty × List (String × Ty)) :=
  match mapGet map name with
  | none =>
    match type with
    | some t => .ok (t, mapSet map name t)
    | none => .error (name ++ " should be in map")
  | some prev => .ok (prev, map)

theorem mapGet_mapSet (map : List (String × Ty)) (name : String) (t : Ty) :
    mapGet (mapSet map name t) name = some t := by
  induction map with
  | nil => simp [mapGet, mapSet]
  | cons kv rest ih =>
    by_cases h : kv.1 = name
    · simp [mapGet, mapSet, h]
    · unfold mapSet
      rw [if_neg h]
      unfold mapGet at ih ⊢
      rw [List.find?_cons_of_neg _ (by simpa using h)]
      exact ih

/--
C3 (amended): in a single inference pass the first concrete type matched
against a free type parameter is stored as its binding, on every later
occurrence the stored binding is returned with the map unchanged (so an
existing binding is never overwritten), and the only failure is an
unbound parameter matched against no concrete type. Contrary to the
claim, a later occurrence matched against a DIFFERENT concrete type does
not fail: the supplied type is silently ignored and the stored binding
returned (see the counterexample).
-/
theorem generic_inference_binding_contract :
    ∀ (name : String) (map : List (String × Ty)) (type : Option Ty),
      (∀ t, mapGet map name = none → type = some t →
        paramInfer name map type = .ok (t, mapSet map name t) ∧
        mapGet (mapSet map name t) name = some t) ∧
      (∀ prev, mapGet map name = some prev →
        paramInfer name map type = .ok (prev, map)) ∧
      (mapGet map name = none → type = none →
        paramInfer name map type = .error (name ++ " should be in map")) := by
  intro name map type
  refine ⟨?_, ?_, ?_⟩
  · intro t h1 h2
    subst h2
    unfold paramInfer
    rw [h1]
    exact ⟨rfl, mapGet_mapSet map name t⟩
  · intro prev h
    unfold paramInfer
    rw [h]
  · intro h1 h2
    subst h2
    unfold paramInfer
    rw [h1]

/--
C3 counterexample: with the parameter T already bound to Int, inferring T
against the conflicting concrete type Bool succeeds and returns Int with
the map unchanged — no type error is raised.
-/
theorem generic_inference_claim_counterexample :
    paramInfer "T" [("T", Ty.int)] (some Ty.bool) = .ok (Ty.int, [("T", Ty.int)]) ∧
    Ty.bool ≠ Ty.int := by
  exact ⟨rfl, by decide⟩

/-- Witness for C3: a fresh parameter is bound to the first concrete type
and the binding is retrievable afterwards. -/
theorem generic_inference_binding_contract_witness :
    paramInfer "T" [] (some Ty.int) = .ok (Ty.int, mapSet [] "T" Ty.int) ∧
    mapGet (mapSet [] "T" Ty.int) "T" = some Ty.int :=
  (generic_inference_binding_contract "T" [] (some Ty.int)).1 Ty.int rfl rfl

/-! ### C8: parameter interface errors (Program.evalParam, parameters getter) -/

/-- Kind of thrown JS error: a source-located reference error or syntax
error (created through a token) versus a plain internal `new Error` /
`assertDefined` failure. -/
inductive ErrKind
  | referenceError
  | syntaxError
  | internalError
deriving DecidableEq

/-- A thrown JS error: its kind and message. -/
structure JsErr where
  kind : ErrKind
  msg : String
deriving DecidableEq

/-- A top-level statement, as far as the parameter interface looks at it:
a const statement carries its declared name. -/
inductive PStmt
  | constStmt (n : String)
  | otherStmt (n : String)
deriving DecidableEq

def stmtConstName : PStmt → Option String
  | .constStmt n => some n
  | .otherStmt _ => none

/-- The endCond scan of `evalParam` over `allStatements` (pairs of a
statement and its isImport flag): the first non-imported const statement
with the requested name. -/
def findParamConst (stmts : List (PStmt × Bool)) (name : String) : Option PStmt :=
  stmts.findSome? (fun si =>
    match si.1 with
    | .constStmt n => if (n == name) && !si.2 then some si.1 else none
    | .otherStmt _ => none)

/-- `Program.evalParam(name)` up to locating the const statement: if no
non-imported const statement has the requested name, it throws the plain
`new Error` with message naming the parameter (NOT a reference error);
otherwise the located statement is compiled and evaluated. -/
def evalParam (stmts : List (PStmt × Bool)) (name : String) : Except JsErr PStmt :=
  match findParamConst stmts name with
  | none => .error ⟨.internalError, "param \x27" ++ name ++ "\x27 not found"⟩
  | some s => .ok s

/-- The names in the `paramTypes` object: const statements among
`mainAndPostStatements`, which are exactly the non-imported statements. -/
def paramTypeNames (stmts : List (PStmt × Bool)) : List String :=
  (stmts.filter (fun si => !si.2)).filterMap (fun si => stmtConstName si.1)

/-- The `parameters` getter proxy at an uncached name: `assertDefined`
on `types[name]` throws the plain internal error when the name is not a
`paramTypes` key, else the value is computed through `evalParam`. -/
def getParameter (stmts : List (PStmt × Bool)) (name : String) : Except JsErr PStmt :=
  if (paramTypeNames stmts).contains name then
    evalParam stmts name
  else
    .error ⟨.internalError, "invalid param name \x27" ++ name ++ "\x27"⟩

/--
C8 (amended): if a name has no non-imported top-level const statement,
then `evalParam` fails with the plain internal error whose message names
the missing parameter, and the `parameters` getter fails with the plain
internal `invalid param name` error, also naming it. Contrary to the
claim, neither failure is a source-located reference error (contrast
`changeParamSafe`, which does throw `referenceError` for this case); the
counterexample exhibits the internal kind.
-/
theorem parameter_interface_contract (stmts : List (PStmt × Bool)) (name : String)
    (h : ∀ si ∈ stmts, si.2 = false → si.1 ≠ PStmt.constStmt name) :
    evalParam stmts name =
      .error ⟨.internalError, "param \x27" ++ name ++ "\x27 not found"⟩ ∧
    getParameter stmts name =
      .error ⟨.internalError, "invalid param name \x27" ++ name ++ "\x27"⟩ := by
  have hfind : findParamConst stmts name = none := by
    apply List.findSome?_eq_none_iff.mpr
    intro si hsi
    dsimp only
    cases hs1 : si.1 with
    | otherStmt m => rfl
    | constStmt n =>
      cases hs2 : si.2 with
      | true => simp
      | false =>
        have hne := h si hsi hs2
        rw [hs1] at hne
        have hb : (n == name) = false := by
          apply beq_eq_false_iff_ne.mpr
          intro he
          exact hne (by rw [he])
        simp [hb]
  have hmem : (paramTypeNames stmts).contains name = false := by
    apply Bool.eq_false_iff.mpr
    intro hc
    have hm : name ∈ paramTypeNames stmts := by
      rw [List.contains_iff_exists_mem_beq] at hc
      obtain ⟨a, ha, hab⟩ := hc
      rw [show a = name from (beq_iff_eq.mp hab).symm] at ha
      exact ha
    rw [paramTypeNames] at hm
    rw [List.mem_filterMap] at hm
    obtain ⟨si, hsi, hval⟩ := hm
    rw [List.mem_filter] at hsi
    obtain ⟨hsi, hb⟩ := hsi
    have hb2 : si.2 = false := by simpa using hb
    have hne := h si hsi hb2
    cases hs1 : si.1 with
    | otherStmt m => rw [hs1] at hval; cases hval
    | constStmt n =>
      rw [hs1] at hval
      unfold stmtConstName at hval
      injection hval with hval
      rw [hs1, hval] at hne
      exact hne rfl
  constructor
  · unfold evalParam
    rw [hfind]
  · unfold getParameter
    rw [if_neg (fun hc => Bool.false_ne_true (hmem ▸ hc))]

/--
C8 counterexample: a program whose only statements are a non-const main
and an unrelated const; requesting the undeclared name x fails through
both interfaces with plain internal errors, not reference errors (while
the messages do name the parameter).
-/
theorem parameter_claim_counterexample :
    evalParam [(PStmt.constStmt "y", false), (PStmt.otherStmt "main", false)] "x" =
      .error ⟨ErrKind.internalError, "param \x27x\x27 not found"⟩ ∧
    getParameter [(PStmt.constStmt "y", false), (PStmt.otherStmt "main", false)] "x" =
      .error ⟨ErrKind.internalError, "invalid param name \x27x\x27"⟩ ∧
    ErrKind.internalError ≠ ErrKind.referenceError := by
  refine ⟨rfl, rfl, by decide⟩

/-- Witness for C8: concrete program with no const named x. -/
theorem parameter_interface_contract_witness :
    evalParam [(PStmt.constStmt "y", false)] "x" =
      .error ⟨.internalError, "param \x27" ++ "x" ++ "\x27 not found"⟩ ∧
    getParameter [(PStmt.constStmt "y", false)] "x" =
      .error ⟨.internalError, "invalid param name \x27" ++ "x" ++ "\x27"⟩ :=
  parameter_interface_contract [(PStmt.constStmt "y", false)] "x" (by decide)

/-! ### C9: struct field getters (StructStatement.toIR, DataDefinition.toIR) -/

/-- `getterBaseName` of DataDefinition.toIR: constr-index getter base for
enum variants, tuple-index getter base for non-constr (struct) layout. -/
def getterBaseName (isConstr : Bool) : String :=
  if isConstr then "__helios__common__field" else "__helios__common__tuple_field"

/-- The tail chain built by the j-loop for field indices at or above 20:
j nested `__core__tailList` applications around the raw list. -/
def tailChain : Nat → String → String
  | 0, inner => inner
  | j + 1, inner => "__core__tailList(" ++ tailChain j inner ++ ")"

/-- The getter IR (flattened to text) for field index i of a data
definition: for i below 20 the named index getter (wrapped with
`__helios__common__unBoolData` for a Bool field), for larger i an
explicit head/tail chain. -/
def fieldGetter (isConstr : Bool) (i : Nat) (isBool : Bool) : String :=
  if i < 20 then
    let base := getterBaseName isConstr ++ "_" ++ toString i
    if isBool then
      "(self) -> \x7b__helios__common__unBoolData(" ++ base ++ "(self))\x7d"
    else base
  else
    let inner0 := if isConstr then "__core__sndPair(__core__unConstrData(self))"
      else "__core__unListData(self)"
    let inner1 := "__core__headList(" ++ tailChain i inner0 ++ ")"
    let inner2 := if isBool then "__helios__common__unBoolData(" ++ inner1 ++ ")" else inner1
    "(self) -> \x7b" ++ inner2 ++ "\x7d"

/-- The field loop of DataDefinition.toIR from a start index: each field
(name, is-Bool flag) adds the defs-map entry path__name bound to its
index getter. -/
def dataDefGo (path : String) (isConstr : Bool) :
    Nat → List (String × Bool) → List (String × String)
  | _, [] => []
  | i, f :: rest =>
    (path ++ "__" ++ f.1, fieldGetter isConstr i f.2) :: dataDefGo path isConstr (i + 1) rest

/-- `DataDefinition.toIR(map, isConstr)`: the defs-map entries added for
the fields, in order. -/
def dataDefToIR (path : String) (fields : List (String × Bool)) (isConstr : Bool) :
    List (String × String) :=
  dataDefGo path isConstr 0 fields

/-- `StructStatement.toIR(map)`: a single field is bound to the identity
function (or the Bool unwrapper); otherwise the data-definition getters
with isConstr = false (tuple layout). -/
def structToIR (path : String) (fields : List (String × Bool)) : List (String × String) :=
  match fields with
  | [f] =>
    [(path ++ "__" ++ f.1,
      if f.2 then "__helios__common__unBoolData" else "__helios__common__identity")]
  | _ => dataDefToIR path fields false

theorem dataDefGo_get? (path : String) (isConstr : Bool) :
    ∀ (fields : List (String × Bool)) (start i : Nat) (f : String × Bool),
      fields.get? i = some f →
      (dataDefGo path isConstr start fields).get? i =
        some (path ++ "__" ++ f.1, fieldGetter isConstr (start + i) f.2) := by
  intro fields
  induction fields with
  | nil => intro start i f h; cases h
  | cons g rest ih =>
    intro start i f h
    cases i with
    | zero =>
      injection h with h
      subst h
      rfl
    | succ j =>
      have := ih (start + 1) j f h
      rw [show start + 1 + j = start + (j + 1) by omega] at this
      exact this

/--
C9: a struct with exactly one field binds the getter of that field to the
identity function (or to the Bool unwrapper when the field is Bool), so
the struct is represented directly by the field encoding; a struct with
two or more fields gets one index-based getter per field, the i-th being
the tuple-field index getter for i below 20.
-/
theorem single_field_struct_representation :
    (∀ (path fname : String) (isBool : Bool),
      structToIR path [(fname, isBool)] =
        [(path ++ "__" ++ fname,
          if isBool then "__helios__common__unBoolData"
          else "__helios__common__identity")]) ∧
    (∀ (path : String) (fields : List (String × Bool)), 2 ≤ fields.length →
      structToIR path fields = dataDefToIR path fields false ∧
      (∀ i f, fields.get? i = some f →
        (structToIR path fields).get? i =
          some (path ++ "__" ++ f.1, fieldGetter false i f.2))) ∧
    (∀ (i : Nat) (b : Bool), i < 20 →
      fieldGetter false i b =
        if b then
          "(self) -> \x7b__helios__common__unBoolData(__helios__common__tuple_field_"
            ++ toString i ++ "(self))\x7d"
        else "__helios__common__tuple_field_" ++ toString i) := by
  refine ⟨?_, ?_, ?_⟩
  · intro path fname isBool
    cases isBool <;> rfl
  · intro path fields hlen
    match fields with
    | [] => simp at hlen
    | [f] => simp at hlen
    | a :: b :: rest =>
      refine ⟨rfl, ?_⟩
      intro i f h
      have := dataDefGo_get? path false (a :: b :: rest) 0 i f h
      rw [Nat.zero_add] at this
      exact this
  · intro i b hi
    unfold fieldGetter
    rw [if_pos hi]
    cases b <;> rfl

/-- Witness for C9: the second field of a two-field struct gets the
tuple-field index getter at index 1. -/
theorem single_field_struct_representation_witness :
    (structToIR "p" [("a", false), ("b", true)]).get? 1 =
      some ("p" ++ "__" ++ "b", fieldGetter false 1 true) ∧
    fieldGetter false 1 false = "__helios__common__tuple_field_" ++ toString 1 :=
  ⟨(single_field_struct_representation.2.1 "p" [("a", false), ("b", true)]
      (by decide)).2 1 ("b", true) rfl,
   single_field_struct_representation.2.2 1 false (by decide)⟩

/-! ### C10: unique module names (Program.parseImports, Program.new) -/

/-- The name-uniqueness loop of `Program.parseImports`: the seen set
starts as the singleton main-module name; each auxiliary module whose
name is already seen raises the non-unique syntax error, else its name
is added. Modules are abstracted to their parsed names. -/
def parseImportsGo (names : List String) : List String → Except JsErr Unit
  | [] => .ok ()
  | n :: rest =>
    if names.contains n then
      .error ⟨.syntaxError, "non-unique module name \x27" ++ n ++ "\x27"⟩
    else parseImportsGo (n :: names) rest

/-- `Program.parseImports(mainName, moduleSrcs)`: returns the parsed
auxiliary modules when all names are unique (and distinct from the main
name), else throws the syntax error of the loop. -/
def parseImports (mainName : String) (moduleNames : List String) :
    Except JsErr (List String) :=
  match parseImportsGo [mainName] moduleNames with
  | .error e => .error e
  | .ok () => .ok moduleNames

/-- The stage order of `Program.new` after `parseMain`: `parseImports`
runs first, then dependency resolution (`filterDependencies`), then type
checking (`evalTypes`). The later stages are parameters, to express that
a parseImports failure precedes and is independent of them. -/
def programNew (mainName : String) (moduleNames : List String)
    (resolveDeps : List String → Except JsErr (List String))
    (typeCheck : List String → Except JsErr Unit) :
    Except JsErr (List String) :=
  match parseImports mainName moduleNames with
  | .error e => .error e
  | .ok imports =>
    match resolveDeps imports with
    | .error e => .error e
    | .ok deps =>
      match typeCheck deps with
      | .error e => .error e
      | .ok () => .ok deps

theorem parseImportsGo_ok_iff (l : List String) :
    ∀ (names : List String),
      parseImportsGo names l = .ok () ↔ (∀ n ∈ names, n ∉ l) ∧ l.Nodup := by
  induction l with
  | nil =>
    intro names
    simp [parseImportsGo]
  | cons n rest ih =>
    intro names
    unfold parseImportsGo
    by_cases hc : names.contains n
    · rw [if_pos hc]
      have hn : n ∈ names := by
        rw [List.contains_iff_exists_mem_beq] at hc
        obtain ⟨a, ha, hab⟩ := hc
        rw [show n = a from beq_iff_eq.mp hab]
        exact ha
      constructor
      · intro h; cases h
      · rintro ⟨h1, _⟩
        exact absurd (List.mem_cons_self n rest) (h1 n hn)
    · rw [if_neg hc]
      rw [ih (n :: names)]
      have hn : n ∉ names := by
        intro hmem
        exact hc (List.contains_iff_exists_mem_beq.mpr ⟨n, hmem, beq_iff_eq.mpr rfl⟩)
      constructor
      · rintro ⟨h1, h2⟩
        refine ⟨?_, ?_⟩
        · intro m hm
          rw [List.mem_cons]
          push_neg
          refine ⟨?_, h1 m (List.mem_cons_of_mem n hm)⟩
          intro he
          exact hn (he ▸ hm)
        · exact List.nodup_cons.mpr ⟨h1 n (List.mem_cons_self n names), h2⟩
      · rintro ⟨h1, h2⟩
        have h2n := List.nodup_cons.mp h2
        refine ⟨?_, h2n.2⟩
        intro m hm
        rw [List.mem_cons] at hm
        cases hm with
        | inl he => exact he ▸ h2n.1
        | inr hmem =>
          have := h1 m hmem
          rw [List.mem_cons] at this
          push_neg at this
          exact this.2

theorem parseImportsGo_shape (l : List String) :
    ∀ (names : List String),
      parseImportsGo names l = .ok () ∨
      ∃ n, parseImportsGo names l =
        .error ⟨.syntaxError, "non-unique module name \x27" ++ n ++ "\x27"⟩ := by
  induction l with
  | nil => intro names; left; rfl
  | cons n rest ih =>
    intro names
    unfold parseImportsGo
    by_cases hc : names.contains n
    · rw [if_pos hc]
      right
      exact ⟨n, rfl⟩
    · rw [if_neg hc]
      exact ih (n :: names)

/--
C10: module names handed to program construction must be pairwise unique
and distinct from the main module name: `parseImports` succeeds (and
returns the auxiliary modules) exactly when the main name followed by the
auxiliary names has no duplicate, and on any violation program
construction fails with the non-unique-module-name syntax error naming a
duplicated module, whatever the later dependency-resolution and
type-checking stages would do — they never run.
-/
theorem unique_module_names_contract :
    ∀ (mainName : String) (moduleNames : List String),
      (parseImports mainName moduleNames = .ok moduleNames ↔
        (mainName :: moduleNames).Nodup) ∧
      (∀ (resolveDeps : List String → Except JsErr (List String))
         (typeCheck : List String → Except JsErr Unit),
        ¬(mainName :: moduleNames).Nodup →
        ∃ n, programNew mainName moduleNames resolveDeps typeCheck =
          .error ⟨.syntaxError, "non-unique module name \x27" ++ n ++ "\x27"⟩) := by
  intro mainName moduleNames
  have hiff : parseImportsGo [mainName] moduleNames = .ok () ↔
      (mainName :: moduleNames).Nodup := by
    rw [parseImportsGo_ok_iff]
    rw [List.nodup_cons]
    constructor
    · rintro ⟨h1, h2⟩
      exact ⟨h1 mainName (List.mem_cons_self mainName []), h2⟩
    · rintro ⟨h1, h2⟩
      refine ⟨?_, h2⟩
      intro m hm
      rw [List.mem_singleton] at hm
      exact hm ▸ h1
  constructor
  · unfold parseImports
    cases hgo : parseImportsGo [mainName] moduleNames with
    | error e =>
      constructor
      · intro h; cases h
      · intro hnd
        rw [hiff.mpr hnd] at hgo
        cases hgo
    | ok u =>
      cases u
      constructor
      · intro _
        exact hiff.mp hgo
      · intro _
        rfl
  · intro resolveDeps typeCheck hnd
    have hgo : parseImportsGo [mainName] moduleNames ≠ .ok () := by
      intro h
      exact hnd (hiff.mp h)
    cases parseImportsGo_shape moduleNames [mainName] with
    | inl h => exact absurd h hgo
    | inr h =>
      obtain ⟨n, h⟩ := h
      refine ⟨n, ?_⟩
      unfold programNew parseImports
      rw [h]

/-- Witness for C10: two auxiliary modules both named a make program
construction fail with the non-unique-module-name syntax error, even
with trivially succeeding later stages. -/
theorem unique_module_names_contract_witness :
    ∃ n, programNew "main" ["a", "a"] (fun l => .ok l) (fun _ => .ok ()) =
      .error ⟨.syntaxError, "non-unique module name \x27" ++ n ++ "\x27"⟩ :=
  (unique_module_names_contract "main" ["a", "a"]).2 (fun l => .ok l) (fun _ => .ok ())
    (by decide)

end Helios
